import Mathlib

/-!
Verification of the `flax.nnx` `Module` base class (`src/flax/nnx/nnx/module.py`).

A module tree is embedded shallowly: a `Module` holds a class name and an
ordered association list of attributes (`Fields`); an attribute is a nested
sub-module, a `Variable` (a typed container for a tracked value), or a plain
Python value (`PyVal`).  In-place mutation is modelled by explicit state
passing; code that raises `ValueError` returns the (already mutated) state
together with an optional error message.

The helpers `graph.iter_graph`, `graph.get_node_impl(...).node_dict`,
`graph.split`, `graph.merge` and `filterlib.to_predicate` are imported by
`module.py` from modules that are not part of the given sources; their
definitions below are modelled from the spec and from how `module.py` uses
them, as noted in the corresponding doc comments.
-/

namespace Flax

/-- A plain (non-module, non-Variable) Python value stored in an attribute. -/
inductive PyVal where
  | vnone : PyVal
  | vbool : Bool → PyVal
  | vint : Int → PyVal
  | vstr : String → PyVal
  | vtuple : List PyVal → PyVal

/-- A `Variable`: a typed container marking an attribute as a tracked value.
The exact Python class of the variable (`type(variable)`) is modelled by the
`varType` tag, and `raw_value` by `rawValue`. -/
structure Variable where
  varType : String
  rawValue : PyVal

mutual

/-- One attribute of a module: a sub-module, a `Variable`, or a plain value. -/
inductive Attr where
  | amodule : Module → Attr
  | avar : Variable → Attr
  | aval : PyVal → Attr

/-- A module: its Python class name and its ordered attribute dictionary. -/
inductive Module where
  | mk : String → Fields → Module

/-- An ordered association list of named attributes (a Python `__dict__`). -/
inductive Fields where
  | fnil : Fields
  | fcons : String → Attr → Fields → Fields

end

def Module.className : Module → String
  | .mk cls _ => cls

def Module.fields : Module → Fields
  | .mk _ fs => fs

/-- The attribute names of a field list, in storage order. -/
def keysOf : Fields → List String
  | .fnil => []
  | .fcons k _ rest => k :: keysOf rest

/-- The field list as an ordinary association list. -/
def toListF : Fields → List (String × Attr)
  | .fnil => []
  | .fcons k a rest => (k, a) :: toListF rest

/-- Python `getattr` on a field list (first match wins; Python dicts have unique keys). -/
def getAttrF : Fields → String → Option Attr
  | .fnil, _ => none
  | .fcons k a rest, n => if k = n then some a else getAttrF rest n

/-- Python `hasattr` on a field list. -/
def hasAttrF (fs : Fields) (n : String) : Bool :=
  (getAttrF fs n).isSome

/-- Python `getattr(module, n)` as an `Option`. -/
def getattrM (m : Module) (n : String) : Option Attr :=
  getAttrF m.fields n

/-- Python `hasattr(module, n)`. -/
def hasattrM (m : Module) (n : String) : Bool :=
  (getattrM m n).isSome

/-- Replace the value stored under an existing key (every occurrence;
with unique keys this is ordinary replacement, and it never adds a key). -/
def setKeyF : Fields → String → Attr → Fields
  | .fnil, _, _ => .fnil
  | .fcons k b rest, n, a =>
    if k = n then .fcons k a (setKeyF rest n a) else .fcons k b (setKeyF rest n a)

/-- Add a new key at the end of the attribute dictionary (Python insertion order). -/
def appendF : Fields → String → Attr → Fields
  | .fnil, n, a => .fcons n a .fnil
  | .fcons k b rest, n, a => .fcons k b (appendF rest n a)

/-- Python `setattr`: overwrite an existing attribute, or add a fresh one at the end. -/
def setattrF (fs : Fields) (n : String) (a : Attr) : Fields :=
  if hasAttrF fs n then setKeyF fs n a else appendF fs n a

/-- Python `setattr(module, n, a)`. -/
def setattrM (m : Module) (n : String) (a : Attr) : Module :=
  .mk m.className (setattrF m.fields n a)

mutual

/-- Modelled from the spec: `graph.iter_graph` (not in the given sources) is the
reflective traversal over the object graph; per the `iter_modules` doc example it
yields every node of the attribute tree, children before their parent, each with
its path from the root.  `iter_modules` keeps exactly the `Module` nodes.  The
claims checked here are insensitive to the order of the yielded pairs, so the
sorting of sibling keys performed by the external graph utility is not modelled:
siblings are traversed in storage order. -/
def iterModulesAux : List String → Module → List (List String × Module)
  | path, .mk cls fs => iterFieldsAux path fs ++ [(path, .mk cls fs)]

def iterFieldsAux : List String → Fields → List (List String × Module)
  | _, .fnil => []
  | path, .fcons k (.amodule c) rest =>
    iterModulesAux (path ++ [k]) c ++ iterFieldsAux path rest
  | path, .fcons _ _ rest => iterFieldsAux path rest

end

/-- The method `Module.iter_modules`: all nested modules of the current module, the current
module included, each with its path from the root (the root has path `[]`). -/
def iter_modules (m : Module) : List (List String × Module) :=
  iterModulesAux [] m

/-- Modelled from the spec: `graph.get_node_impl(self).node_dict(self)` (not in
the given sources) is the module's own attribute dictionary.  `iter_children`
keeps exactly the entries of that dictionary that are modules. -/
def iterChildrenF : Fields → List (String × Module)
  | .fnil => []
  | .fcons k (.amodule c) rest => (k, c) :: iterChildrenF rest
  | .fcons _ _ rest => iterChildrenF rest

/-- The method `Module.iter_children`: the immediate child modules, with their keys. -/
def iter_children (m : Module) : List (String × Module) :=
  iterChildrenF m.fields

/-- The default reducer `tuple_reduce = lambda xs, x: xs + (x,)` (appending to a Python tuple;
only tuples reach it under the default `init_fn`). -/
def tuple_reduce (xs : PyVal) (x : PyVal) : PyVal :=
  match xs with
  | .vtuple l => .vtuple (l ++ [x])
  | other => other

/-- The default initializer `tuple_init = lambda: ()`. -/
def tuple_init : Unit → PyVal :=
  fun _ => .vtuple []

/-- The method `Module.sow`.  On success the updated module is returned with `none`; a
`ValueError` is returned as `some message` together with the untouched module. -/
def sow (m : Module) (variable_type : String) (name : String) (value : PyVal)
    (reduce_fn : PyVal → PyVal → PyVal) (init_fn : Unit → PyVal) :
    Module × Option String :=
  match getattrM m name with
  | some (Attr.avar var) =>
    if var.varType = variable_type then
      (setattrM m name (.avar ⟨variable_type, reduce_fn var.rawValue value⟩), none)
    else
      (m, some "Expected the attribute to be of the given Variable type")
  | some _ => (m, some "Expected the attribute to be a Variable")
  | none =>
    (setattrM m name (.avar ⟨variable_type, reduce_fn (init_fn ()) value⟩), none)

/-- Modelled from the spec: `filterlib.Filter` (not in the given sources).
Filters select modules; `True` selects everything, a type filter selects by
the module's class, and a path filter by the path from the root. -/
inductive Filter where
  | everything : Filter
  | ofType : String → Filter
  | byPath : (List String → Bool) → Filter

/-- Modelled from the spec: `filterlib.to_predicate` turns a filter into a
predicate on `(path, module)` pairs. -/
def to_predicate : Filter → (List String → Module → Bool)
  | .everything => fun _ _ => true
  | .ofType cls => fun _ m => m.className == cls
  | .byPath f => fun p _ => f p

/-- The inner loop of `set_attributes` for one selected module: for each
`(name, value)` keyword in order, if the module has the attribute, remove the
name from the remaining set and set the attribute. -/
def applyAttrs : List (String × PyVal) → Fields → List String → Fields × List String
  | [], fs, rem => (fs, rem)
  | (name, value) :: rest, fs, rem =>
    if hasAttrF fs name then
      applyAttrs rest (setattrF fs name (.aval value)) (rem.erase name)
    else
      applyAttrs rest fs rem

mutual

/-- The `for path, module in self.iter_modules()` loop of `set_attributes`:
children are visited (and mutated) before their parent, and a module whose
`(path, module)` pair satisfies some predicate gets the keyword attributes it
has set on it.  The list of still-unfound attribute names is threaded through. -/
def saModule (preds : List (List String → Module → Bool))
    (ats : List (String × PyVal)) :
    List String → Module → List String → Module × List String
  | path, .mk cls fs, rem =>
    let r := saFields preds ats path fs rem
    if preds.any (fun p => p path (Module.mk cls r.fst)) then
      let r2 := applyAttrs ats r.fst r.snd
      (Module.mk cls r2.fst, r2.snd)
    else
      (Module.mk cls r.fst, r.snd)

def saFields (preds : List (List String → Module → Bool))
    (ats : List (String × PyVal)) :
    List String → Fields → List String → Fields × List String
  | _, .fnil, rem => (.fnil, rem)
  | path, .fcons k (.amodule c) rest, rem =>
    let rc := saModule preds ats (path ++ [k]) c rem
    let rr := saFields preds ats path rest rc.snd
    (.fcons k (.amodule rc.fst) rr.fst, rr.snd)
  | path, .fcons k a rest, rem =>
    let rr := saFields preds ats path rest rem
    (.fcons k a rr.fst, rr.snd)

end

/-- The method `Module.set_attributes`: select modules with the filters (no filter means
everything), set each passed keyword attribute on every selected module that
has it, and — when `raise_if_not_found` — raise if some keyword attribute was
found on no selected module.  The mutated module is returned in either case. -/
def set_attributes (m : Module) (filters : List Filter)
    (raise_if_not_found : Bool) (attributes : List (String × PyVal)) :
    Module × Option String :=
  let remaining_attributes := attributes.map Prod.fst
  let filters2 := if filters.isEmpty then [Filter.everything] else filters
  let predicates := filters2.map to_predicate
  let r := saModule predicates attributes [] m remaining_attributes
  if raise_if_not_found && !r.snd.isEmpty then
    (r.fst, some "Could not find at least one instance of the attributes")
  else
    (r.fst, none)

/-- The method `Module.train`: `set_attributes` with `deterministic=False`,
`use_running_average=False`, extra keywords appended, `raise_if_not_found=False`. -/
def train (m : Module) (attributes : List (String × PyVal)) : Module × Option String :=
  set_attributes m [] false
    ([("deterministic", PyVal.vbool false),
      ("use_running_average", PyVal.vbool false)] ++ attributes)

/-- The method `Module.eval`: `set_attributes` with `deterministic=True`,
`use_running_average=True`, extra keywords appended, `raise_if_not_found=False`. -/
def eval (m : Module) (attributes : List (String × PyVal)) : Module × Option String :=
  set_attributes m [] false
    ([("deterministic", PyVal.vbool true),
      ("use_running_average", PyVal.vbool true)] ++ attributes)

/-- The helper `first_from`: the first non-`None` argument, or `ValueError(error_msg)`
when every argument is `None` (also when there is no argument at all). -/
def first_from {α : Type} : List (Option α) → String → Except String α
  | [], error_msg => .error error_msg
  | some a :: _, _ => .ok a
  | none :: args, error_msg => first_from args error_msg

mutual

/-- Modelled from the spec: the structural-description half of `graph.split`
(not in the given sources): the module tree with every `Variable`'s value
removed, keeping classes, keys, plain values and variable types. -/
def stripM : Module → Module
  | .mk cls fs => .mk cls (stripF fs)

def stripF : Fields → Fields
  | .fnil => .fnil
  | .fcons k (.amodule c) rest => .fcons k (.amodule (stripM c)) (stripF rest)
  | .fcons k (.avar v) rest => .fcons k (.avar ⟨v.varType, PyVal.vnone⟩) (stripF rest)
  | .fcons k (.aval v) rest => .fcons k (.aval v) (stripF rest)

end

mutual

/-- Modelled from the spec: the state half of `graph.split`: the flat mapping
from path to leaf value, one entry per `Variable` in the tree. -/
def collectM : List String → Module → List (List String × Variable)
  | p, .mk _ fs => collectF p fs

def collectF : List String → Fields → List (List String × Variable)
  | _, .fnil => []
  | p, .fcons k (.amodule c) rest => collectM (p ++ [k]) c ++ collectF p rest
  | p, .fcons k (.avar v) rest => (p ++ [k], v) :: collectF p rest
  | p, .fcons _ (.aval _) rest => collectF p rest

end

/-- Modelled from the spec: `graph.split` converts a module into a separate
structural description and a flat mapping from path to leaf value. -/
def split (m : Module) : Module × List (List String × Variable) :=
  (stripM m, collectM [] m)

/-- First-match lookup of a path in a flat path-to-leaf mapping. -/
def lookupPath : List (List String × Variable) → List String → Option Variable
  | [], _ => none
  | (q, v) :: rest, p => if q = p then some v else lookupPath rest p

mutual

/-- Modelled from the spec: `graph.merge` plugs the leaves of a flat
path-to-leaf mapping back into a structural description.  A variable position
whose path is missing from the mapping keeps the placeholder. -/
def mergeM (st : List (List String × Variable)) : List String → Module → Module
  | p, .mk cls fs => .mk cls (mergeF st p fs)

def mergeF (st : List (List String × Variable)) : List String → Fields → Fields
  | _, .fnil => .fnil
  | p, .fcons k (.amodule c) rest =>
    .fcons k (.amodule (mergeM st (p ++ [k]) c)) (mergeF st p rest)
  | p, .fcons k (.avar v) rest =>
    match lookupPath st (p ++ [k]) with
    | some w => .fcons k (.avar w) (mergeF st p rest)
    | none => .fcons k (.avar v) (mergeF st p rest)
  | p, .fcons k (.aval v) rest => .fcons k (.aval v) (mergeF st p rest)

end

/-- Modelled from the spec: `graph.merge`. -/
def merge (graphdef : Module) (state : List (List String × Variable)) : Module :=
  mergeM state [] graphdef

/-- Lexicographic comparison of paths, as Python compares tuples of strings
when `sorted` is applied to the items of the state mapping. -/
def pathLeb : List String → List String → Bool
  | [], _ => true
  | _ :: _, [] => false
  | a :: as, b :: bs => if a < b then true else if b < a then false else pathLeb as bs

/-- The order on state entries used by `_module_flatten`: by path key. -/
def pairOrder (x y : List String × Variable) : Prop :=
  pathLeb x.fst y.fst = true

instance : DecidableRel pairOrder :=
  fun x y => inferInstanceAs (Decidable (pathLeb x.fst y.fst = true))

/-- The hook `_module_flatten` (the `with_keys=False` form used as `flatten_func`; the
`with_keys=True` form differs only in tagging each child with `jtu.DictKey`):
split the module and emit the children sorted by path key, with the keys and
the graphdef as auxiliary data. -/
def _module_flatten (module : Module) :
    List Variable × (List (List String) × Module) :=
  let gs := split module
  let key_values := List.insertionSort pairOrder gs.snd
  let keys := key_values.map Prod.fst
  let children := key_values.map Prod.snd
  (children, (keys, gs.fst))

/-- The hook `_module_unflatten`: merge the graphdef with the zipped paths and leaves. -/
def _module_unflatten (paths_moduledef : List (List String) × Module)
    (leaves : List Variable) : Module :=
  merge paths_moduledef.snd (List.zip paths_moduledef.fst leaves)

/-- Boolean no-duplicates check on a key list. -/
def nodupB : List String → Bool
  | [] => true
  | k :: rest => !(List.contains rest k) && nodupB rest

mutual

/-- Well-formedness of a module tree as a Python object tree: at every level
the attribute names are distinct (Python dicts cannot hold duplicate keys). -/
def wfM : Module → Bool
  | .mk _ fs => nodupB (keysOf fs) && wfF fs

def wfF : Fields → Bool
  | .fnil => true
  | .fcons _ (.amodule c) rest => wfM c && wfF rest
  | .fcons _ _ rest => wfF rest

end

/-- Reachability `Reach m p m'`: module `m'` is reachable from `m` by attribute traversal
along the key path `p` (the spec-side notion of "reachable from the root"). -/
inductive Reach : Module → List String → Module → Prop where
  | here (m : Module) : Reach m [] m
  | child {k : String} {c m' : Module} {p : List String} (m : Module)
      (hmem : (k, Attr.amodule c) ∈ toListF m.fields)
      (hr : Reach c p m') : Reach m (k :: p) m'

/-- Repeated `sow` with the default `reduce_fn`/`init_fn`, one call per value,
collecting every raised error message. -/
def sowList (m : Module) (ty : String) (name : String) :
    List PyVal → Module × List String
  | [] => (m, [])
  | v :: vs =>
    let r := sow m ty name v tuple_reduce tuple_init
    let rest := sowList r.fst ty name vs
    (rest.fst, r.snd.toList ++ rest.snd)

/-- A `(path, module)` pair satisfies at least one of the filters passed to
`set_attributes` (no filter meaning the `True` filter, as in the source). -/
def matchesFilters (filters : List Filter) (path : List String) (m : Module) : Bool :=
  ((if filters.isEmpty then [Filter.everything] else filters).map to_predicate).any
    (fun pr => pr path m)

/-- Correspondence between a module of the original tree and the module at the
same position after `set_attributes`: same class, same attribute names; on a
selected module every passed attribute it has is set and the others keep their
values; on an unselected module every non-module attribute keeps its value. -/
def corr (preds : List (List String → Module → Bool)) (ats : List (String × PyVal))
    (q : List String) (sub sub' : Module) : Prop :=
  sub'.className = sub.className ∧
  keysOf sub'.fields = keysOf sub.fields ∧
  ((preds.any fun pr => pr q sub) = true →
    (∀ n v, (n, v) ∈ ats → hasattrM sub n = true → getattrM sub' n = some (.aval v)) ∧
    (∀ n, n ∉ ats.map Prod.fst → ∀ a, getattrM sub n = some a →
      (∀ c, a ≠ .amodule c) → getattrM sub' n = some a)) ∧
  ((preds.any fun pr => pr q sub) = false →
    ∀ n a, getattrM sub n = some a → (∀ c, a ≠ .amodule c) → getattrM sub' n = some a)

/-- Some module yielded by the traversal of the field list satisfies a
predicate and has the attribute (the condition under which `set_attributes`
removes the name from its remaining set). -/
def foundF (preds : List (List String → Module → Bool)) (path : List String)
    (fs : Fields) (n : String) : Prop :=
  ∃ q sub, (q, sub) ∈ iterFieldsAux path fs ∧ (preds.any fun pr => pr q sub) = true ∧
    hasattrM sub n = true

/-- Some module yielded by the traversal of the module satisfies a predicate
and has the attribute. -/
def foundM (preds : List (List String → Module → Bool)) (path : List String)
    (m : Module) (n : String) : Prop :=
  ∃ q sub, (q, sub) ∈ iterModulesAux path m ∧ (preds.any fun pr => pr q sub) = true ∧
    hasattrM sub n = true

/-- A small concrete module tree used by the witnesses: a block holding a
boolean flag, a dropout child with flags of its own, and a variable. -/
def w0 : Module :=
  .mk "Block"
    (.fcons "deterministic" (.aval (.vbool true))
      (.fcons "drop"
        (.amodule (.mk "Dropout"
          (.fcons "deterministic" (.aval (.vbool true))
            (.fcons "rate" (.aval (.vint 1)) .fnil))))
        (.fcons "w" (.avar ⟨"Param", .vint 3⟩) .fnil)))

/-- The dropout child of `w0`. -/
def w0drop : Module :=
  .mk "Dropout"
    (.fcons "deterministic" (.aval (.vbool true))
      (.fcons "rate" (.aval (.vint 1)) .fnil))

/-- An empty module used by the witnesses. -/
def wEmpty : Module := .mk "M" .fnil

/-- Characterization of the traversal of a module, used in the mutual
induction: yielded pairs are exactly the reachable modules with their paths. -/
def iterMemM (m : Module) : Prop :=
  ∀ p q m', (q, m') ∈ iterModulesAux p m ↔ ∃ s, q = p ++ s ∧ Reach m s m'

/-- Characterization of the traversal of a field list. -/
def iterMemF (fs : Fields) : Prop :=
  ∀ p q m', (q, m') ∈ iterFieldsAux p fs ↔
    ∃ k c s, (k, Attr.amodule c) ∈ toListF fs ∧ q = p ++ k :: s ∧ Reach c s m'

/-- Correspondence statement for `saModule`, used in the mutual induction:
every module yielded by traversing the result corresponds, at the same path,
to a module of the original tree. -/
def saCorrM (preds : List (List String → Module → Bool))
    (ats : List (String × PyVal)) (m : Module) : Prop :=
  ∀ path rem q sub',
    (q, sub') ∈ iterModulesAux path (saModule preds ats path m rem).fst →
    ∃ sub, (q, sub) ∈ iterModulesAux path m ∧ corr preds ats q sub sub'

/-- Correspondence statement for `saFields`. -/
def saCorrF (preds : List (List String → Module → Bool))
    (ats : List (String × PyVal)) (fs : Fields) : Prop :=
  ∀ path rem q sub',
    (q, sub') ∈ iterFieldsAux path (saFields preds ats path fs rem).fst →
    ∃ sub, (q, sub) ∈ iterFieldsAux path fs ∧ corr preds ats q sub sub'

/-- Remaining-set statement for `saModule`: the returned remaining list is a
sublist of the input, and a name survives exactly when it was not found (with
a satisfied predicate) anywhere in the traversal. -/
def saRemM (preds : List (List String → Module → Bool))
    (ats : List (String × PyVal)) (m : Module) : Prop :=
  ∀ path rem, (saModule preds ats path m rem).snd.Sublist rem ∧
    (rem.Nodup → ∀ n, n ∈ (saModule preds ats path m rem).snd ↔
      n ∈ rem ∧ ¬(n ∈ ats.map Prod.fst ∧ foundM preds path m n))

/-- Remaining-set statement for `saFields`. -/
def saRemF (preds : List (List String → Module → Bool))
    (ats : List (String × PyVal)) (fs : Fields) : Prop :=
  ∀ path rem, (saFields preds ats path fs rem).snd.Sublist rem ∧
    (rem.Nodup → ∀ n, n ∈ (saFields preds ats path fs rem).snd ↔
      n ∈ rem ∧ ¬(n ∈ ats.map Prod.fst ∧ foundF preds path fs n))

/-- Merge-after-split statement for a module, used in the mutual induction:
if the state list answers every collected path with the collected leaf,
merging it into the stripped module restores the module. -/
def mergeOkM (m : Module) : Prop :=
  ∀ p st, (∀ q v, (q, v) ∈ collectM p m → lookupPath st q = some v) →
    mergeM st p (stripM m) = m

/-- Merge-after-split statement for a field list. -/
def mergeOkF (fs : Fields) : Prop :=
  ∀ p st, (∀ q v, (q, v) ∈ collectF p fs → lookupPath st q = some v) →
    mergeF st p (stripF fs) = fs

/-- Every collected path extends the prefix (module form). -/
def collectPreM (m : Module) : Prop :=
  ∀ p q v, (q, v) ∈ collectM p m → ∃ s, q = p ++ s

/-- Every collected path extends the prefix by one of the keys (fields form). -/
def collectPreF (fs : Fields) : Prop :=
  ∀ p q v, (q, v) ∈ collectF p fs → ∃ k s, q = p ++ k :: s ∧ k ∈ keysOf fs

/-- In a well-formed tree the collected paths are pairwise distinct. -/
def collectNdM (m : Module) : Prop :=
  ∀ p, wfM m = true → ((collectM p m).map Prod.fst).Nodup

/-- Fields form of `collectNdM`. -/
def collectNdF (fs : Fields) : Prop :=
  ∀ p, nodupB (keysOf fs) = true → wfF fs = true →
    ((collectF p fs).map Prod.fst).Nodup

/-! Mutual induction principle for the module tree. -/

mutual

theorem moduleInd (PM : Module → Prop) (PF : Fields → Prop)
    (hmk : ∀ cls fs, PF fs → PM (.mk cls fs))
    (hnil : PF .fnil)
    (hcm : ∀ k c rest, PM c → PF rest → PF (.fcons k (.amodule c) rest))
    (hcv : ∀ k v rest, PF rest → PF (.fcons k (.avar v) rest))
    (hcl : ∀ k v rest, PF rest → PF (.fcons k (.aval v) rest)) :
    ∀ m : Module, PM m
  | .mk cls fs => hmk cls fs (fieldsInd PM PF hmk hnil hcm hcv hcl fs)

theorem fieldsInd (PM : Module → Prop) (PF : Fields → Prop)
    (hmk : ∀ cls fs, PF fs → PM (.mk cls fs))
    (hnil : PF .fnil)
    (hcm : ∀ k c rest, PM c → PF rest → PF (.fcons k (.amodule c) rest))
    (hcv : ∀ k v rest, PF rest → PF (.fcons k (.avar v) rest))
    (hcl : ∀ k v rest, PF rest → PF (.fcons k (.aval v) rest)) :
    ∀ fs : Fields, PF fs
  | .fnil => hnil
  | .fcons k (.amodule c) rest =>
    hcm k c rest (moduleInd PM PF hmk hnil hcm hcv hcl c)
      (fieldsInd PM PF hmk hnil hcm hcv hcl rest)
  | .fcons k (.avar v) rest => hcv k v rest (fieldsInd PM PF hmk hnil hcm hcv hcl rest)
  | .fcons k (.aval v) rest => hcl k v rest (fieldsInd PM PF hmk hnil hcm hcv hcl rest)

end

/-! Basic lemmas about attribute access and update. -/

theorem hasAttrF_iff_mem : ∀ (fs : Fields) (n : String),
    hasAttrF fs n = true ↔ n ∈ keysOf fs
  | .fnil, n => by simp [hasAttrF, getAttrF, keysOf]
  | .fcons k a rest, n => by
    by_cases h : k = n
    · simp [hasAttrF, getAttrF, keysOf, h]
    · simp only [hasAttrF, getAttrF, keysOf, if_neg h, List.mem_cons]
      rw [show ((getAttrF rest n).isSome = true ↔ n ∈ keysOf rest) from
        hasAttrF_iff_mem rest n]
      constructor
      · exact Or.inr
      · rintro (rfl | hm)
        · exact absurd rfl h
        · exact hm

theorem getAttrF_setKeyF_self : ∀ (fs : Fields) (n : String) (a : Attr),
    getAttrF (setKeyF fs n a) n = (getAttrF fs n).map (fun _ => a)
  | .fnil, n, a => rfl
  | .fcons k b rest, n, a => by
    by_cases h : k = n
    · simp [setKeyF, getAttrF, h]
    · simp [setKeyF, getAttrF, h, getAttrF_setKeyF_self rest n a]

theorem getAttrF_setKeyF_ne : ∀ (fs : Fields) (n m : String) (a : Attr), m ≠ n →
    getAttrF (setKeyF fs n a) m = getAttrF fs m
  | .fnil, _, _, _, _ => rfl
  | .fcons k b rest, n, m, a, h => by
    simp only [setKeyF]
    by_cases hk : k = n
    · rw [if_pos hk]
      simp only [getAttrF]
      have hkm : ¬(k = m) := fun he => h (he.symm.trans hk)
      rw [if_neg hkm, if_neg hkm, getAttrF_setKeyF_ne rest n m a h]
    · rw [if_neg hk]
      simp only [getAttrF]
      by_cases hm : k = m
      · rw [if_pos hm, if_pos hm]
      · rw [if_neg hm, if_neg hm, getAttrF_setKeyF_ne rest n m a h]

theorem keysOf_setKeyF : ∀ (fs : Fields) (n : String) (a : Attr),
    keysOf (setKeyF fs n a) = keysOf fs
  | .fnil, _, _ => rfl
  | .fcons k b rest, n, a => by
    by_cases h : k = n <;> simp [setKeyF, keysOf, h, keysOf_setKeyF rest n a]

theorem getAttrF_appendF_old : ∀ (fs : Fields) (n m : String) (a b : Attr),
    getAttrF fs m = some b → getAttrF (appendF fs n a) m = some b
  | .fnil, n, m, a, b, h => by simp [getAttrF] at h
  | .fcons k c rest, n, m, a, b, h => by
    by_cases hk : k = m
    · simpa [appendF, getAttrF, hk] using h
    · simp only [getAttrF, if_neg hk] at h
      simpa [appendF, getAttrF, hk] using getAttrF_appendF_old rest n m a b h

theorem getAttrF_appendF_new : ∀ (fs : Fields) (n : String) (a : Attr),
    getAttrF fs n = none → getAttrF (appendF fs n a) n = some a
  | .fnil, n, a, _ => by simp [appendF, getAttrF]
  | .fcons k c rest, n, a, h => by
    by_cases hk : k = n
    · simp [getAttrF, hk] at h
    · simp only [getAttrF, if_neg hk] at h
      simpa [appendF, getAttrF, hk] using getAttrF_appendF_new rest n a h

theorem getattrM_setattrM_self (m : Module) (n : String) (a : Attr) :
    getattrM (setattrM m n a) n = some a := by
  unfold getattrM setattrM setattrF
  by_cases h : hasAttrF m.fields n = true
  · rw [if_pos h]
    show getAttrF (setKeyF m.fields n a) n = some a
    rw [getAttrF_setKeyF_self]
    unfold hasAttrF at h
    cases hg : getAttrF m.fields n with
    | none => rw [hg] at h; simp at h
    | some b => simp
  · rw [if_neg h]
    show getAttrF (appendF m.fields n a) n = some a
    unfold hasAttrF at h
    apply getAttrF_appendF_new
    cases hg : getAttrF m.fields n with
    | none => rfl
    | some b => rw [hg] at h; simp at h

theorem getattrM_setattrM_ne (m : Module) (n k : String) (a : Attr) (h : k ≠ n)
    (b : Attr) (hb : getattrM m k = some b) : getattrM (setattrM m n a) k = some b := by
  unfold getattrM setattrM setattrF
  by_cases hh : hasAttrF m.fields n = true
  · rw [if_pos hh]
    show getAttrF (setKeyF m.fields n a) k = some b
    rw [getAttrF_setKeyF_ne m.fields n k a h]
    exact hb
  · rw [if_neg hh]
    exact getAttrF_appendF_old m.fields n k a b hb

/-! Claims about `first_from` (claim C10). -/

/-- C10: `first_from` returns the first argument in positional order that is
not `None`, and raises `ValueError` with the given error message if and only
if every argument is `None`, including when no arguments are passed. -/
theorem first_from_spec {α : Type} (args : List (Option α)) (msg : String) :
    (first_from args msg = .error msg ↔ ∀ o ∈ args, o = none) ∧
    (∀ l a r, args = l ++ some a :: r → (∀ o ∈ l, o = none) →
      first_from args msg = .ok a) := by
  induction args with
  | nil =>
    refine ⟨by simp [first_from], ?_⟩
    intro l a r he
    exact absurd he (by simp)
  | cons o rest ih =>
    cases o with
    | some a =>
      refine ⟨⟨fun h => by simp [first_from] at h,
        fun h => absurd (h (some a) (by simp)) (by simp)⟩, ?_⟩
      intro l b r he hl
      cases l with
      | nil =>
        have : some a = some b := by simpa using congrArg (fun l => l.head?) he
        simp [first_from]
        exact Option.some.inj this
      | cons x l2 =>
        have hx : x = some a := by
          have := congrArg (fun l => l.head?) he
          simpa using this.symm
        exact absurd (hl x (by simp)) (by simp [hx])
    | none =>
      refine ⟨?_, ?_⟩
      · rw [show first_from (none :: rest) msg = first_from rest msg from rfl, ih.1]
        constructor
        · intro h o ho
          rcases List.mem_cons.mp ho with rfl | ho
          · rfl
          · exact h o ho
        · intro h o ho
          exact h o (List.mem_cons_of_mem _ ho)
      · intro l b r he hl
        cases l with
        | nil => simp at he
        | cons x l2 =>
          have hrest : rest = l2 ++ some b :: r := by
            have := congrArg (fun l => l.tail) he
            simpa using this
          rw [show first_from (none :: rest) msg = first_from rest msg from rfl]
          exact ih.2 l2 b r hrest (fun o ho => hl o (List.mem_cons_of_mem _ ho))

/-- Witness for C10 at concrete inputs. -/
theorem first_from_spec_witness :
    first_from [none, some 3, none] "e" = Except.ok 3 ∧
    first_from ([] : List (Option Nat)) "e" = Except.error "e" := by
  constructor
  · exact (first_from_spec [none, some 3, none] "e").2 [none] 3 [none] rfl (by simp)
  · exact (first_from_spec ([] : List (Option Nat)) "e").1.mpr (by simp)

/-! Claims about `sow` (claims C2 and C9). -/

/-- C9: `sow` raises `ValueError` when the module already has an attribute of
the given name that is not a `Variable`, or is a `Variable` whose exact type
differs from `variable_type`; the module is returned unchanged. -/
theorem sow_error_spec (m : Module) (ty name : String) (v : PyVal)
    (rf : PyVal → PyVal → PyVal) (inf : Unit → PyVal) (a : Attr)
    (hget : getattrM m name = some a)
    (hbad : ∀ w : Variable, a = Attr.avar w → w.varType ≠ ty) :
    ∃ msg, sow m ty name v rf inf = (m, some msg) := by
  unfold sow
  rw [hget]
  cases a with
  | amodule c => exact ⟨_, rfl⟩
  | aval pv => exact ⟨_, rfl⟩
  | avar w =>
    have hne : ¬(w.varType = ty) := hbad w rfl
    exact ⟨"Expected the attribute to be of the given Variable type", by simp [hne]⟩

/-- Witness for C9: sowing over a plain boolean attribute raises. -/
theorem sow_error_spec_witness :
    ∃ msg, sow w0 "T" "deterministic" (PyVal.vint 0) tuple_reduce tuple_init
      = (w0, some msg) :=
  sow_error_spec w0 "T" "deterministic" (PyVal.vint 0) tuple_reduce tuple_init
    (Attr.aval (PyVal.vbool true)) rfl (fun _ h => Attr.noConfusion h)

theorem sow_step (m : Module) (ty name : String) (v : PyVal) (l : List PyVal)
    (h : getattrM m name = some (.avar ⟨ty, .vtuple l⟩)) :
    sow m ty name v tuple_reduce tuple_init =
      (setattrM m name (.avar ⟨ty, .vtuple (l ++ [v])⟩), none) := by
  unfold sow
  rw [h]
  simp [tuple_reduce]

theorem sow_first (m : Module) (ty name : String) (v : PyVal)
    (h : getattrM m name = none) :
    sow m ty name v tuple_reduce tuple_init =
      (setattrM m name (.avar ⟨ty, .vtuple [v]⟩), none) := by
  unfold sow
  rw [h]
  simp [tuple_reduce, tuple_init]

theorem sowList_inv : ∀ (vs : List PyVal) (m : Module) (ty name : String)
    (l : List PyVal), getattrM m name = some (.avar ⟨ty, .vtuple l⟩) →
    (sowList m ty name vs).snd = [] ∧
    getattrM (sowList m ty name vs).fst name = some (.avar ⟨ty, .vtuple (l ++ vs)⟩)
  | [], m, ty, name, l, h => by simp [sowList, h]
  | v :: vs, m, ty, name, l, h => by
    have hs := sow_step m ty name v l h
    have hnext : getattrM (setattrM m name (.avar ⟨ty, .vtuple (l ++ [v])⟩)) name
        = some (.avar ⟨ty, .vtuple (l ++ [v])⟩) := getattrM_setattrM_self m name _
    have ih := sowList_inv vs _ ty name (l ++ [v]) hnext
    simp only [sowList, hs]
    constructor
    · simpa using ih.1
    · simpa [List.append_assoc] using ih.2

/-- C2: starting from a module without the attribute, `k` calls of `sow` with
the default `reduce_fn` and `init_fn` raise nothing and leave the attribute
holding a `Variable` of exactly the given type whose value is the tuple of the
sown values in order (the first call stores the one-element tuple
`reduce_fn(init_fn(), v1)`, each later call appends at the end). -/
theorem sow_default_accumulates (m : Module) (ty name : String) (vs : List PyVal)
    (hno : hasattrM m name = false) (hne : vs ≠ []) :
    (sowList m ty name vs).snd = [] ∧
    getattrM (sowList m ty name vs).fst name = some (.avar ⟨ty, .vtuple vs⟩) := by
  cases vs with
  | nil => exact absurd rfl hne
  | cons v vs =>
    have hg : getattrM m name = none := by
      unfold hasattrM at hno
      cases h : getattrM m name with
      | none => rfl
      | some a => rw [h] at hno; simp at hno
    have h1 := sow_first m ty name v hg
    have hnext := getattrM_setattrM_self m name (.avar ⟨ty, .vtuple [v]⟩)
    have ih := sowList_inv vs _ ty name [v] hnext
    simp only [sowList, h1]
    constructor
    · simpa using ih.1
    · simpa using ih.2

/-- Witness for C2: two sown values end up as the two-element tuple. -/
theorem sow_default_accumulates_witness :
    (sowList wEmpty "Intermediate" "i" [PyVal.vint 1, PyVal.vint 2]).snd = [] ∧
    getattrM (sowList wEmpty "Intermediate" "i" [PyVal.vint 1, PyVal.vint 2]).fst "i"
      = some (.avar ⟨"Intermediate", .vtuple [PyVal.vint 1, PyVal.vint 2]⟩) :=
  sow_default_accumulates wEmpty "Intermediate" "i" [PyVal.vint 1, PyVal.vint 2]
    rfl (by simp)

/-! Traversal (claims C5 and C6). -/

theorem iterMem_all : (∀ m, iterMemM m) ∧ (∀ fs, iterMemF fs) := by
  have hmk : ∀ cls fs, iterMemF fs → iterMemM (.mk cls fs) := by
    intro cls fs hF p q m'
    simp only [iterModulesAux, List.mem_append, List.mem_singleton]
    constructor
    · rintro (h | h)
      · rcases (hF p q m').mp h with ⟨k, c, s, hmem, rfl, hr⟩
        refine ⟨k :: s, rfl, Reach.child _ ?_ hr⟩
        simpa [Module.fields] using hmem
      · obtain ⟨rfl, rfl⟩ := Prod.mk.inj h
        exact ⟨[], by simp, Reach.here _⟩
    · rintro ⟨s, rfl, hr⟩
      cases hr with
      | here => exact Or.inr (by simp)
      | child _ hmem hr2 =>
        refine Or.inl ((hF p _ m').mpr ⟨_, _, _, ?_, rfl, hr2⟩)
        simpa [Module.fields] using hmem
  have hnil : iterMemF .fnil := by
    intro p q m'
    simp [iterFieldsAux, toListF]
  have hcm : ∀ k c rest, iterMemM c → iterMemF rest →
      iterMemF (.fcons k (.amodule c) rest) := by
    intro k c rest hM hF p q m'
    simp only [iterFieldsAux, List.mem_append, toListF, List.mem_cons]
    constructor
    · rintro (h | h)
      · rcases (hM (p ++ [k]) q m').mp h with ⟨s, rfl, hr⟩
        exact ⟨k, c, s, Or.inl rfl, by simp, hr⟩
      · rcases (hF p q m').mp h with ⟨k2, c2, s, hmem, rfl, hr⟩
        exact ⟨k2, c2, s, Or.inr hmem, rfl, hr⟩
    · rintro ⟨k2, c2, s, (heq | hmem), rfl, hr⟩
      · obtain ⟨rfl, hh⟩ := Prod.mk.inj heq
        obtain rfl : c2 = c := by
          cases hh
          rfl
        refine Or.inl ((hM (p ++ [k2]) _ m').mpr ⟨s, by simp, hr⟩)
      · exact Or.inr ((hF p _ m').mpr ⟨k2, c2, s, hmem, rfl, hr⟩)
  have hcv : ∀ k v rest, iterMemF rest → iterMemF (.fcons k (.avar v) rest) := by
    intro k v rest hF p q m'
    simp only [iterFieldsAux, toListF, List.mem_cons]
    rw [hF p q m']
    constructor
    · rintro ⟨k2, c2, s, hmem, rfl, hr⟩
      exact ⟨k2, c2, s, Or.inr hmem, rfl, hr⟩
    · rintro ⟨k2, c2, s, (heq | hmem), rfl, hr⟩
      · obtain ⟨rfl, hh⟩ := Prod.mk.inj heq
        exact Attr.noConfusion hh
      · exact ⟨k2, c2, s, hmem, rfl, hr⟩
  have hcl : ∀ k v rest, iterMemF rest → iterMemF (.fcons k (.aval v) rest) := by
    intro k v rest hF p q m'
    simp only [iterFieldsAux, toListF, List.mem_cons]
    rw [hF p q m']
    constructor
    · rintro ⟨k2, c2, s, hmem, rfl, hr⟩
      exact ⟨k2, c2, s, Or.inr hmem, rfl, hr⟩
    · rintro ⟨k2, c2, s, (heq | hmem), rfl, hr⟩
      · obtain ⟨rfl, hh⟩ := Prod.mk.inj heq
        exact Attr.noConfusion hh
      · exact ⟨k2, c2, s, hmem, rfl, hr⟩
  exact ⟨moduleInd iterMemM iterMemF hmk hnil hcm hcv hcl,
    fieldsInd iterMemM iterMemF hmk hnil hcm hcv hcl⟩

/-- C5: `iter_modules` yields exactly the modules reachable from the root by
attribute traversal, each with its key path, the root itself included with the
empty path. -/
theorem iter_modules_spec (m : Module) (q : List String) (m' : Module) :
    ((q, m') ∈ iter_modules m ↔ Reach m q m') ∧ ([], m) ∈ iter_modules m := by
  constructor
  · have h := iterMem_all.1 m [] q m'
    simpa [iter_modules] using h
  · exact (iterMem_all.1 m [] [] m).mpr ⟨[], rfl, Reach.here m⟩

/-- Witness for C5 at a concrete tree: the nested dropout is yielded with its
path, and is reachable. -/
theorem iter_modules_spec_witness :
    (["drop"], w0drop) ∈ iter_modules w0 ∧ Reach w0 ["drop"] w0drop := by
  have he : iter_modules w0 = [(["drop"], w0drop), ([], w0)] := rfl
  have h1 : (["drop"], w0drop) ∈ iter_modules w0 := by
    rw [he]
    exact List.mem_cons_self _ _
  exact ⟨h1, (iter_modules_spec w0 ["drop"] w0drop).1.mp h1⟩

theorem iterChildrenF_mem : ∀ (fs : Fields) (k : String) (c : Module),
    ((k, c) ∈ iterChildrenF fs ↔ (k, Attr.amodule c) ∈ toListF fs)
  | .fnil, k, c => by simp [iterChildrenF, toListF]
  | .fcons k2 (.amodule c2) rest, k, c => by
    simp only [iterChildrenF, toListF, List.mem_cons]
    rw [iterChildrenF_mem rest k c]
    constructor
    · rintro (heq | hmem)
      · obtain ⟨rfl, rfl⟩ := Prod.mk.inj heq
        exact Or.inl rfl
      · exact Or.inr hmem
    · rintro (heq | hmem)
      · obtain ⟨rfl, hh⟩ := Prod.mk.inj heq
        obtain rfl : c = c2 := by
          cases hh
          rfl
        exact Or.inl rfl
      · exact Or.inr hmem
  | .fcons k2 (.avar v) rest, k, c => by
    simp only [iterChildrenF, toListF, List.mem_cons]
    rw [iterChildrenF_mem rest k c]
    constructor
    · exact Or.inr
    · rintro (heq | hmem)
      · obtain ⟨rfl, hh⟩ := Prod.mk.inj heq
        exact Attr.noConfusion hh
      · exact hmem
  | .fcons k2 (.aval v) rest, k, c => by
    simp only [iterChildrenF, toListF, List.mem_cons]
    rw [iterChildrenF_mem rest k c]
    constructor
    · exact Or.inr
    · rintro (heq | hmem)
      · obtain ⟨rfl, hh⟩ := Prod.mk.inj heq
        exact Attr.noConfusion hh
      · exact hmem

theorem mem_toListF_size : ∀ (fs : Fields) (k : String) (c : Module),
    (k, Attr.amodule c) ∈ toListF fs → sizeOf c < sizeOf fs
  | .fnil, k, c, h => by simp [toListF] at h
  | .fcons k2 a rest, k, c, h => by
    simp only [toListF, List.mem_cons] at h
    rcases h with heq | hmem
    · obtain ⟨rfl, rfl⟩ := Prod.mk.inj heq
      simp only [Fields.fcons.sizeOf_spec, Attr.amodule.sizeOf_spec]
      omega
    · have := mem_toListF_size rest k c hmem
      simp only [Fields.fcons.sizeOf_spec]
      omega

/-- C6: `iter_children` yields exactly the pairs `(key, child)` with `child` a
module stored directly in the module's attribute dictionary under `key`; it
never yields the module itself, and everything it yields also appears in
`iter_modules` under the one-element path. -/
theorem iter_children_spec (m : Module) (k : String) (c : Module) :
    ((k, c) ∈ iter_children m ↔ (k, Attr.amodule c) ∈ toListF m.fields) ∧
    ((k, m) ∉ iter_children m) ∧
    ((k, c) ∈ iter_children m → ([k], c) ∈ iter_modules m) := by
  refine ⟨iterChildrenF_mem m.fields k c, ?_, ?_⟩
  · intro h
    have hm := (iterChildrenF_mem m.fields k m).mp h
    have hs := mem_toListF_size m.fields k m hm
    cases m with
    | mk cls fs =>
      simp only [Module.fields] at hs
      have : sizeOf fs < sizeOf (Module.mk cls fs) := by
        simp only [Module.mk.sizeOf_spec]
        omega
      omega
  · intro h
    have hm := (iterChildrenF_mem m.fields k c).mp h
    exact (iterMem_all.1 m [] [k] c).mpr ⟨[k], rfl, Reach.child m hm (Reach.here c)⟩

/-- Witness for C6 at a concrete tree. -/
theorem iter_children_spec_witness :
    ("drop", w0drop) ∈ iter_children w0 ∧ (["drop"], w0drop) ∈ iter_modules w0 := by
  have he : iter_children w0 = [("drop", w0drop)] := rfl
  have h1 : ("drop", w0drop) ∈ iter_children w0 := by
    rw [he]
    exact List.mem_cons_self _ _
  exact ⟨h1, (iter_children_spec w0 "drop" w0drop).2.2 h1⟩

/-! Lemmas for `set_attributes` (claims C1, C3, C4, C8): the inner
attribute-update loop. -/

theorem hasAttrF_congr_keys (fs1 fs2 : Fields) (h : keysOf fs1 = keysOf fs2)
    (n : String) : hasAttrF fs1 n = hasAttrF fs2 n := by
  cases h1 : hasAttrF fs1 n <;> cases h2 : hasAttrF fs2 n
  · rfl
  · have hm := (hasAttrF_iff_mem fs2 n).mp h2
    rw [← h] at hm
    have hc := (hasAttrF_iff_mem fs1 n).mpr hm
    rw [h1] at hc
    exact hc
  · have hm := (hasAttrF_iff_mem fs1 n).mp h1
    rw [h] at hm
    have hc := (hasAttrF_iff_mem fs2 n).mpr hm
    rw [h2] at hc
    exact hc.symm
  · rfl

theorem keysOf_setattrF_of_has (fs : Fields) (n : String) (a : Attr)
    (h : hasAttrF fs n = true) : keysOf (setattrF fs n a) = keysOf fs := by
  unfold setattrF
  rw [if_pos h]
  exact keysOf_setKeyF fs n a

theorem applyAttrs_keys : ∀ (ats : List (String × PyVal)) (fs : Fields)
    (rem : List String), keysOf (applyAttrs ats fs rem).fst = keysOf fs
  | [], fs, rem => rfl
  | (name, value) :: rest, fs, rem => by
    by_cases h : hasAttrF fs name = true
    · rw [show applyAttrs ((name, value) :: rest) fs rem
        = applyAttrs rest (setattrF fs name (.aval value)) (rem.erase name) from by
          simp [applyAttrs, h]]
      rw [applyAttrs_keys rest _ _, keysOf_setattrF_of_has fs name _ h]
    · rw [show applyAttrs ((name, value) :: rest) fs rem
        = applyAttrs rest fs rem from by simp [applyAttrs, h]]
      exact applyAttrs_keys rest fs rem

theorem applyAttrs_get_notmem : ∀ (ats : List (String × PyVal)) (fs : Fields)
    (rem : List String) (n : String), n ∉ ats.map Prod.fst →
    getAttrF (applyAttrs ats fs rem).fst n = getAttrF fs n
  | [], fs, rem, n, _ => rfl
  | (name, value) :: rest, fs, rem, n, hn => by
    have hne : n ≠ name := by
      intro he
      exact hn (by simp [he])
    have hrest : n ∉ rest.map Prod.fst := by
      intro hm
      exact hn (by simp [hm])
    by_cases h : hasAttrF fs name = true
    · rw [show applyAttrs ((name, value) :: rest) fs rem
        = applyAttrs rest (setattrF fs name (.aval value)) (rem.erase name) from by
          simp [applyAttrs, h]]
      rw [applyAttrs_get_notmem rest _ _ n hrest]
      unfold setattrF
      rw [if_pos h]
      exact getAttrF_setKeyF_ne fs name n _ hne
    · rw [show applyAttrs ((name, value) :: rest) fs rem
        = applyAttrs rest fs rem from by simp [applyAttrs, h]]
      exact applyAttrs_get_notmem rest fs rem n hrest

theorem applyAttrs_get_mem : ∀ (ats : List (String × PyVal)) (fs : Fields)
    (rem : List String) (n : String) (v : PyVal),
    (ats.map Prod.fst).Nodup → (n, v) ∈ ats → hasAttrF fs n = true →
    getAttrF (applyAttrs ats fs rem).fst n = some (.aval v)
  | [], fs, rem, n, v, _, hm, _ => by simp at hm
  | (name, value) :: rest, fs, rem, n, v, hnd, hm, hh => by
    rcases List.mem_cons.mp hm with heq | hm2
    · obtain ⟨rfl, rfl⟩ := Prod.mk.inj heq
      rw [show applyAttrs ((n, v) :: rest) fs rem
        = applyAttrs rest (setattrF fs n (.aval v)) (rem.erase n) from by
          simp [applyAttrs, hh]]
      have hnin : n ∉ rest.map Prod.fst := by
        have := hnd
        simp only [List.map_cons, List.nodup_cons] at this
        exact this.1
      rw [applyAttrs_get_notmem rest _ _ n hnin]
      unfold setattrF
      rw [if_pos hh]
      rw [getAttrF_setKeyF_self]
      unfold hasAttrF at hh
      cases hg : getAttrF fs n with
      | none => rw [hg] at hh; simp at hh
      | some b => simp
    · have hne : n ≠ name := by
        intro he
        subst he
        have : n ∈ rest.map Prod.fst := by
          exact List.mem_map.mpr ⟨(n, v), hm2, rfl⟩
        simp only [List.map_cons, List.nodup_cons] at hnd
        exact hnd.1 this
      have hnd2 : (rest.map Prod.fst).Nodup := by
        simp only [List.map_cons, List.nodup_cons] at hnd
        exact hnd.2
      by_cases h : hasAttrF fs name = true
      · rw [show applyAttrs ((name, value) :: rest) fs rem
          = applyAttrs rest (setattrF fs name (.aval value)) (rem.erase name) from by
            simp [applyAttrs, h]]
        have hh2 : hasAttrF (setattrF fs name (.aval value)) n = true := by
          rw [hasAttrF_congr_keys _ fs (keysOf_setattrF_of_has fs name _ h) n]
          exact hh
        exact applyAttrs_get_mem rest _ _ n v hnd2 hm2 hh2
      · rw [show applyAttrs ((name, value) :: rest) fs rem
          = applyAttrs rest fs rem from by simp [applyAttrs, h]]
        exact applyAttrs_get_mem rest fs rem n v hnd2 hm2 hh

theorem applyAttrs_sublist : ∀ (ats : List (String × PyVal)) (fs : Fields)
    (rem : List String), (applyAttrs ats fs rem).snd.Sublist rem
  | [], fs, rem => List.Sublist.refl rem
  | (name, value) :: rest, fs, rem => by
    by_cases h : hasAttrF fs name = true
    · rw [show applyAttrs ((name, value) :: rest) fs rem
        = applyAttrs rest (setattrF fs name (.aval value)) (rem.erase name) from by
          simp [applyAttrs, h]]
      exact (applyAttrs_sublist rest _ _).trans (List.erase_sublist name rem)
    · rw [show applyAttrs ((name, value) :: rest) fs rem
        = applyAttrs rest fs rem from by simp [applyAttrs, h]]
      exact applyAttrs_sublist rest fs rem

theorem applyAttrs_rem_mem : ∀ (ats : List (String × PyVal)) (fs : Fields)
    (rem : List String), rem.Nodup → ∀ n, n ∈ (applyAttrs ats fs rem).snd ↔
    n ∈ rem ∧ ¬(n ∈ ats.map Prod.fst ∧ hasAttrF fs n = true)
  | [], fs, rem, _, n => by simp [applyAttrs]
  | (name, value) :: rest, fs, rem, hnd, n => by
    by_cases h : hasAttrF fs name = true
    · rw [show applyAttrs ((name, value) :: rest) fs rem
        = applyAttrs rest (setattrF fs name (.aval value)) (rem.erase name) from by
          simp [applyAttrs, h]]
      rw [applyAttrs_rem_mem rest _ _ (hnd.erase name) n]
      have hkeys := keysOf_setattrF_of_has fs name (Attr.aval value) h
      rw [show hasAttrF (setattrF fs name (.aval value)) n = hasAttrF fs n from
        hasAttrF_congr_keys _ fs hkeys n]
      rw [List.Nodup.mem_erase_iff hnd]
      by_cases hne : n = name
      · subst hne
        simp [h]
      · simp only [List.map_cons, List.mem_cons]
        constructor
        · rintro ⟨⟨_, hr⟩, hnot⟩
          exact ⟨hr, by
            rintro ⟨(he | hm), hh⟩
            · exact hne he
            · exact hnot ⟨hm, hh⟩⟩
        · rintro ⟨hr, hnot⟩
          exact ⟨⟨hne, hr⟩, by
            rintro ⟨hm, hh⟩
            exact hnot ⟨Or.inr hm, hh⟩⟩
    · rw [show applyAttrs ((name, value) :: rest) fs rem
        = applyAttrs rest fs rem from by simp [applyAttrs, h]]
      rw [applyAttrs_rem_mem rest fs rem hnd n]
      by_cases hne : n = name
      · subst hne
        simp only [List.map_cons, List.mem_cons]
        constructor
        · rintro ⟨hr, hnot⟩
          exact ⟨hr, by
            rintro ⟨_, hh⟩
            exact absurd hh (by simp [h])⟩
        · rintro ⟨hr, hnot⟩
          exact ⟨hr, by
            rintro ⟨hm, hh⟩
            exact hnot ⟨Or.inr hm, hh⟩⟩
      · simp only [List.map_cons, List.mem_cons]
        constructor
        · rintro ⟨hr, hnot⟩
          exact ⟨hr, by
            rintro ⟨(he | hm), hh⟩
            · exact hne he
            · exact hnot ⟨hm, hh⟩⟩
        · rintro ⟨hr, hnot⟩
          exact ⟨hr, by
            rintro ⟨hm, hh⟩
            exact hnot ⟨Or.inr hm, hh⟩⟩

/-! Unfolding equations for the `set_attributes` traversal. -/

theorem saModule_eq (preds : List (List String → Module → Bool))
    (ats : List (String × PyVal)) (path : List String) (cls : String)
    (fs : Fields) (rem : List String) :
    saModule preds ats path (.mk cls fs) rem =
      if (preds.any fun p => p path (Module.mk cls (saFields preds ats path fs rem).fst)) then
        (Module.mk cls (applyAttrs ats (saFields preds ats path fs rem).fst
          (saFields preds ats path fs rem).snd).fst,
         (applyAttrs ats (saFields preds ats path fs rem).fst
          (saFields preds ats path fs rem).snd).snd)
      else
        (Module.mk cls (saFields preds ats path fs rem).fst,
         (saFields preds ats path fs rem).snd) := rfl

theorem saFields_nil (preds : List (List String → Module → Bool))
    (ats : List (String × PyVal)) (path : List String) (rem : List String) :
    saFields preds ats path .fnil rem = (.fnil, rem) := rfl

theorem saFields_cons_module (preds : List (List String → Module → Bool))
    (ats : List (String × PyVal)) (path : List String) (k : String) (c : Module)
    (rest : Fields) (rem : List String) :
    saFields preds ats path (.fcons k (.amodule c) rest) rem =
      (Fields.fcons k (.amodule (saModule preds ats (path ++ [k]) c rem).fst)
        (saFields preds ats path rest (saModule preds ats (path ++ [k]) c rem).snd).fst,
       (saFields preds ats path rest (saModule preds ats (path ++ [k]) c rem).snd).snd) := rfl

theorem saFields_cons_var (preds : List (List String → Module → Bool))
    (ats : List (String × PyVal)) (path : List String) (k : String) (v : Variable)
    (rest : Fields) (rem : List String) :
    saFields preds ats path (.fcons k (.avar v) rest) rem =
      (Fields.fcons k (.avar v) (saFields preds ats path rest rem).fst,
       (saFields preds ats path rest rem).snd) := rfl

theorem saFields_cons_val (preds : List (List String → Module → Bool))
    (ats : List (String × PyVal)) (path : List String) (k : String) (v : PyVal)
    (rest : Fields) (rem : List String) :
    saFields preds ats path (.fcons k (.aval v) rest) rem =
      (Fields.fcons k (.aval v) (saFields preds ats path rest rem).fst,
       (saFields preds ats path rest rem).snd) := rfl

theorem saFields_keys : ∀ (preds : List (List String → Module → Bool))
    (ats : List (String × PyVal)) (path : List String) (fs : Fields)
    (rem : List String), keysOf (saFields preds ats path fs rem).fst = keysOf fs
  | preds, ats, path, .fnil, rem => rfl
  | preds, ats, path, .fcons k (.amodule c) rest, rem => by
    rw [saFields_cons_module]
    simp only [keysOf]
    rw [saFields_keys]
  | preds, ats, path, .fcons k (.avar v) rest, rem => by
    rw [saFields_cons_var]
    simp only [keysOf]
    rw [saFields_keys]
  | preds, ats, path, .fcons k (.aval v) rest, rem => by
    rw [saFields_cons_val]
    simp only [keysOf]
    rw [saFields_keys]

theorem saFields_leaf : ∀ (preds : List (List String → Module → Bool))
    (ats : List (String × PyVal)) (path : List String) (fs : Fields)
    (rem : List String) (n : String) (a : Attr),
    getAttrF fs n = some a → (∀ c, a ≠ .amodule c) →
    getAttrF (saFields preds ats path fs rem).fst n = some a
  | preds, ats, path, .fnil, rem, n, a, hg, _ => by simp [getAttrF] at hg
  | preds, ats, path, .fcons k (.amodule c) rest, rem, n, a, hg, hnot => by
    rw [saFields_cons_module]
    simp only [getAttrF] at hg ⊢
    by_cases hk : k = n
    · rw [if_pos hk] at hg ⊢
      exact absurd (Option.some.inj hg).symm (hnot _)
    · rw [if_neg hk] at hg ⊢
      exact saFields_leaf preds ats path rest _ n a hg hnot
  | preds, ats, path, .fcons k (.avar v) rest, rem, n, a, hg, hnot => by
    rw [saFields_cons_var]
    simp only [getAttrF] at hg ⊢
    by_cases hk : k = n
    · rw [if_pos hk] at hg ⊢
      exact hg
    · rw [if_neg hk] at hg ⊢
      exact saFields_leaf preds ats path rest rem n a hg hnot
  | preds, ats, path, .fcons k (.aval v) rest, rem, n, a, hg, hnot => by
    rw [saFields_cons_val]
    simp only [getAttrF] at hg ⊢
    by_cases hk : k = n
    · rw [if_pos hk] at hg ⊢
      exact hg
    · rw [if_neg hk] at hg ⊢
      exact saFields_leaf preds ats path rest rem n a hg hnot

theorem saModule_class_keys (preds : List (List String → Module → Bool))
    (ats : List (String × PyVal)) (path : List String) (m : Module)
    (rem : List String) :
    (saModule preds ats path m rem).fst.className = m.className ∧
    keysOf (saModule preds ats path m rem).fst.fields = keysOf m.fields := by
  cases m with
  | mk cls fs =>
    rw [saModule_eq]
    by_cases h : (preds.any fun p =>
        p path (Module.mk cls (saFields preds ats path fs rem).fst)) = true
    · rw [if_pos h]
      refine ⟨rfl, ?_⟩
      show keysOf (applyAttrs ats (saFields preds ats path fs rem).fst _).fst = keysOf fs
      rw [applyAttrs_keys, saFields_keys]
    · rw [if_neg h]
      exact ⟨rfl, saFields_keys preds ats path fs rem⟩

/-! Traversing an updated field list yields a subset of the original pairs. -/

theorem iterFields_setKeyF_sub : ∀ (fs : Fields) (p : List String) (n : String)
    (v : PyVal) (q : List String) (sub : Module),
    (q, sub) ∈ iterFieldsAux p (setKeyF fs n (.aval v)) →
    (q, sub) ∈ iterFieldsAux p fs
  | .fnil, p, n, v, q, sub => by simp [setKeyF]
  | .fcons k a rest, p, n, v, q, sub => by
    by_cases hk : k = n
    · simp only [setKeyF, if_pos hk]
      intro h
      simp only [iterFieldsAux] at h
      have hrest := iterFields_setKeyF_sub rest p n v q sub h
      cases a with
      | amodule c =>
        simp only [iterFieldsAux]
        exact List.mem_append_right _ hrest
      | avar w => exact hrest
      | aval w => exact hrest
    · simp only [setKeyF, if_neg hk]
      intro h
      cases a with
      | amodule c =>
        simp only [iterFieldsAux] at h ⊢
        rcases List.mem_append.mp h with hl | hr
        · exact List.mem_append_left _ hl
        · exact List.mem_append_right _ (iterFields_setKeyF_sub rest p n v q sub hr)
      | avar w => exact iterFields_setKeyF_sub rest p n v q sub h
      | aval w => exact iterFields_setKeyF_sub rest p n v q sub h

theorem iterFields_applyAttrs_sub : ∀ (ats : List (String × PyVal)) (fs : Fields)
    (rem : List String) (p : List String) (q : List String) (sub : Module),
    (q, sub) ∈ iterFieldsAux p (applyAttrs ats fs rem).fst →
    (q, sub) ∈ iterFieldsAux p fs
  | [], fs, rem, p, q, sub => fun h => h
  | (name, value) :: rest, fs, rem, p, q, sub => by
    by_cases h : hasAttrF fs name = true
    · rw [show applyAttrs ((name, value) :: rest) fs rem
        = applyAttrs rest (setattrF fs name (.aval value)) (rem.erase name) from by
          simp [applyAttrs, h]]
      intro hm
      have h1 := iterFields_applyAttrs_sub rest _ _ p q sub hm
      rw [show setattrF fs name (.aval value) = setKeyF fs name (.aval value) from by
        simp [setattrF, h]] at h1
      exact iterFields_setKeyF_sub fs p name value q sub h1
    · rw [show applyAttrs ((name, value) :: rest) fs rem
        = applyAttrs rest fs rem from by simp [applyAttrs, h]]
      exact iterFields_applyAttrs_sub rest fs rem p q sub

/-! Predicates built by `to_predicate` only inspect the path and the class. -/

theorem to_predicate_congr (f : Filter) (p : List String) (m1 m2 : Module)
    (h : m1.className = m2.className) :
    to_predicate f p m1 = to_predicate f p m2 := by
  cases f <;> simp [to_predicate, h]

theorem anyPred_congr (fl : List Filter) (p : List String) (m1 m2 : Module)
    (h : m1.className = m2.className) :
    ((fl.map to_predicate).any fun pr => pr p m1)
      = ((fl.map to_predicate).any fun pr => pr p m2) := by
  induction fl with
  | nil => rfl
  | cons f rest ih =>
    simp only [List.map_cons, List.any_cons, ih, to_predicate_congr f p m1 m2 h]

/-! Decomposition of the found-predicates along the tree structure. -/

theorem foundM_decomp (preds : List (List String → Module → Bool))
    (path : List String) (cls : String) (fs : Fields) (n : String) :
    foundM preds path (Module.mk cls fs) n ↔
      foundF preds path fs n ∨
        ((preds.any fun pr => pr path (Module.mk cls fs)) = true ∧
          hasattrM (Module.mk cls fs) n = true) := by
  unfold foundM foundF
  simp only [iterModulesAux, List.mem_append, List.mem_singleton]
  constructor
  · rintro ⟨q, sub, (hm | heq), hp, ha⟩
    · exact Or.inl ⟨q, sub, hm, hp, ha⟩
    · obtain ⟨rfl, rfl⟩ := Prod.mk.inj heq
      exact Or.inr ⟨hp, ha⟩
  · rintro (⟨q, sub, hm, hp, ha⟩ | ⟨hp, ha⟩)
    · exact ⟨q, sub, Or.inl hm, hp, ha⟩
    · exact ⟨path, Module.mk cls fs, Or.inr rfl, hp, ha⟩

theorem foundF_decomp_module (preds : List (List String → Module → Bool))
    (path : List String) (k : String) (c : Module) (rest : Fields) (n : String) :
    foundF preds path (.fcons k (.amodule c) rest) n ↔
      foundM preds (path ++ [k]) c n ∨ foundF preds path rest n := by
  unfold foundM foundF
  simp only [iterFieldsAux, List.mem_append]
  constructor
  · rintro ⟨q, sub, (hm | hm), hp, ha⟩
    · exact Or.inl ⟨q, sub, hm, hp, ha⟩
    · exact Or.inr ⟨q, sub, hm, hp, ha⟩
  · rintro (⟨q, sub, hm, hp, ha⟩ | ⟨q, sub, hm, hp, ha⟩)
    · exact ⟨q, sub, Or.inl hm, hp, ha⟩
    · exact ⟨q, sub, Or.inr hm, hp, ha⟩

theorem foundF_decomp_var (preds : List (List String → Module → Bool))
    (path : List String) (k : String) (v : Variable) (rest : Fields) (n : String) :
    foundF preds path (.fcons k (.avar v) rest) n ↔ foundF preds path rest n := by
  unfold foundF
  simp only [iterFieldsAux]

theorem foundF_decomp_val (preds : List (List String → Module → Bool))
    (path : List String) (k : String) (v : PyVal) (rest : Fields) (n : String) :
    foundF preds path (.fcons k (.aval v) rest) n ↔ foundF preds path rest n := by
  unfold foundF
  simp only [iterFieldsAux]

theorem foundF_nil (preds : List (List String → Module → Bool))
    (path : List String) (n : String) : ¬ foundF preds path .fnil n := by
  rintro ⟨q, sub, hm, _, _⟩
  simp [iterFieldsAux] at hm

/-! The main correspondence for `set_attributes`. -/

theorem saCorr_all (fl : List Filter) (ats : List (String × PyVal))
    (hn : (ats.map Prod.fst).Nodup) :
    (∀ m, saCorrM (fl.map to_predicate) ats m) ∧
    (∀ fs, saCorrF (fl.map to_predicate) ats fs) := by
  have hmk : ∀ cls fs, saCorrF (fl.map to_predicate) ats fs →
      saCorrM (fl.map to_predicate) ats (.mk cls fs) := by
    intro cls fs hF path rem q sub' hmem
    rw [saModule_eq] at hmem
    by_cases hpred : ((fl.map to_predicate).any fun p =>
        p path (Module.mk cls
          (saFields (fl.map to_predicate) ats path fs rem).fst)) = true
    · rw [if_pos hpred] at hmem
      have hpredo : ((fl.map to_predicate).any fun p =>
          p path (Module.mk cls fs)) = true := by
        rw [← anyPred_congr fl path
          (Module.mk cls (saFields (fl.map to_predicate) ats path fs rem).fst)
          (Module.mk cls fs) rfl]
        exact hpred
      simp only [iterModulesAux, List.mem_append, List.mem_singleton] at hmem
      rcases hmem with hmf | heq
      · have h1 := iterFields_applyAttrs_sub ats _ _ path q sub' hmf
        obtain ⟨sub, hsubmem, hcorr⟩ := hF path rem q sub' h1
        refine ⟨sub, ?_, hcorr⟩
        simp only [iterModulesAux, List.mem_append]
        exact Or.inl hsubmem
      · obtain ⟨hq, hs⟩ := Prod.mk.inj heq
        subst q
        subst hs
        refine ⟨Module.mk cls fs, ?_, ?_, ?_, ?_, ?_⟩
        · simp only [iterModulesAux]
          exact List.mem_append_right _ (List.mem_singleton_self _)
        · rfl
        · show keysOf (applyAttrs ats
            (saFields (fl.map to_predicate) ats path fs rem).fst
            (saFields (fl.map to_predicate) ats path fs rem).snd).fst = keysOf fs
          rw [applyAttrs_keys, saFields_keys]
        · intro _hm
          constructor
          · intro n v hnv hha
            show getAttrF (applyAttrs ats
              (saFields (fl.map to_predicate) ats path fs rem).fst
              (saFields (fl.map to_predicate) ats path fs rem).snd).fst n
              = some (.aval v)
            apply applyAttrs_get_mem ats _ _ n v hn hnv
            rw [hasAttrF_congr_keys _ fs
              (saFields_keys (fl.map to_predicate) ats path fs rem) n]
            exact hha
          · intro n hnin a hga hnota
            show getAttrF (applyAttrs ats
              (saFields (fl.map to_predicate) ats path fs rem).fst
              (saFields (fl.map to_predicate) ats path fs rem).snd).fst n = some a
            rw [applyAttrs_get_notmem ats _ _ n hnin]
            exact saFields_leaf (fl.map to_predicate) ats path fs rem n a hga hnota
        · intro hfalse
          rw [hpredo] at hfalse
          exact absurd hfalse (by simp)
    · rw [if_neg hpred] at hmem
      have hpredo : ((fl.map to_predicate).any fun p =>
          p path (Module.mk cls fs)) = false := by
        have h2 : ((fl.map to_predicate).any fun p =>
            p path (Module.mk cls
              (saFields (fl.map to_predicate) ats path fs rem).fst)) = false := by
          simpa using hpred
        rw [← anyPred_congr fl path
          (Module.mk cls (saFields (fl.map to_predicate) ats path fs rem).fst)
          (Module.mk cls fs) rfl]
        exact h2
      simp only [iterModulesAux, List.mem_append, List.mem_singleton] at hmem
      rcases hmem with hmf | heq
      · obtain ⟨sub, hsubmem, hcorr⟩ := hF path rem q sub' hmf
        refine ⟨sub, ?_, hcorr⟩
        simp only [iterModulesAux, List.mem_append]
        exact Or.inl hsubmem
      · obtain ⟨hq, hs⟩ := Prod.mk.inj heq
        subst q
        subst hs
        refine ⟨Module.mk cls fs, ?_, ?_, ?_, ?_, ?_⟩
        · simp only [iterModulesAux]
          exact List.mem_append_right _ (List.mem_singleton_self _)
        · rfl
        · exact saFields_keys (fl.map to_predicate) ats path fs rem
        · intro htrue
          rw [hpredo] at htrue
          exact absurd htrue (by simp)
        · intro _hm n a hga hnota
          exact saFields_leaf (fl.map to_predicate) ats path fs rem n a hga hnota
  have hnil : saCorrF (fl.map to_predicate) ats .fnil := by
    intro path rem q sub' hmem
    rw [saFields_nil] at hmem
    simp [iterFieldsAux] at hmem
  have hcm : ∀ k c rest, saCorrM (fl.map to_predicate) ats c →
      saCorrF (fl.map to_predicate) ats rest →
      saCorrF (fl.map to_predicate) ats (.fcons k (.amodule c) rest) := by
    intro k c rest hM hFr path rem q sub' hmem
    rw [saFields_cons_module] at hmem
    simp only [iterFieldsAux, List.mem_append] at hmem
    rcases hmem with hl | hr
    · obtain ⟨sub, hsm, hcorr⟩ := hM (path ++ [k]) rem q sub' hl
      refine ⟨sub, ?_, hcorr⟩
      simp only [iterFieldsAux, List.mem_append]
      exact Or.inl hsm
    · obtain ⟨sub, hsm, hcorr⟩ := hFr path
        (saModule (fl.map to_predicate) ats (path ++ [k]) c rem).snd q sub' hr
      refine ⟨sub, ?_, hcorr⟩
      simp only [iterFieldsAux, List.mem_append]
      exact Or.inr hsm
  have hcv : ∀ k v rest, saCorrF (fl.map to_predicate) ats rest →
      saCorrF (fl.map to_predicate) ats (.fcons k (.avar v) rest) := by
    intro k v rest hFr path rem q sub' hmem
    rw [saFields_cons_var] at hmem
    simp only [iterFieldsAux] at hmem ⊢
    exact hFr path rem q sub' hmem
  have hcl : ∀ k v rest, saCorrF (fl.map to_predicate) ats rest →
      saCorrF (fl.map to_predicate) ats (.fcons k (.aval v) rest) := by
    intro k v rest hFr path rem q sub' hmem
    rw [saFields_cons_val] at hmem
    simp only [iterFieldsAux] at hmem ⊢
    exact hFr path rem q sub' hmem
  exact ⟨moduleInd _ _ hmk hnil hcm hcv hcl, fieldsInd _ _ hmk hnil hcm hcv hcl⟩

/-! The remaining-set analysis for `set_attributes`. -/

theorem saRem_all (fl : List Filter) (ats : List (String × PyVal)) :
    (∀ m, saRemM (fl.map to_predicate) ats m) ∧
    (∀ fs, saRemF (fl.map to_predicate) ats fs) := by
  have hmk : ∀ cls fs, saRemF (fl.map to_predicate) ats fs →
      saRemM (fl.map to_predicate) ats (.mk cls fs) := by
    intro cls fs hF path rem
    obtain ⟨hsub, hiff⟩ := hF path rem
    rw [saModule_eq]
    by_cases hpred : ((fl.map to_predicate).any fun p =>
        p path (Module.mk cls
          (saFields (fl.map to_predicate) ats path fs rem).fst)) = true
    · rw [if_pos hpred]
      have hpredo : ((fl.map to_predicate).any fun p =>
          p path (Module.mk cls fs)) = true := by
        rw [← anyPred_congr fl path
          (Module.mk cls (saFields (fl.map to_predicate) ats path fs rem).fst)
          (Module.mk cls fs) rfl]
        exact hpred
      constructor
      · exact (applyAttrs_sublist ats _ _).trans hsub
      · intro hnd n
        have hnd2 : (saFields (fl.map to_predicate) ats path fs rem).snd.Nodup :=
          hsub.nodup hnd
        rw [applyAttrs_rem_mem ats _ _ hnd2 n, hiff hnd n]
        rw [show hasAttrF (saFields (fl.map to_predicate) ats path fs rem).fst n
            = hasattrM (Module.mk cls fs) n from
          hasAttrF_congr_keys _ fs
            (saFields_keys (fl.map to_predicate) ats path fs rem) n]
        rw [foundM_decomp]
        rw [hpredo]
        constructor
        · rintro ⟨⟨hr, hn1⟩, hn2⟩
          refine ⟨hr, ?_⟩
          rintro ⟨hk, (hf | ⟨_, hh⟩)⟩
          · exact hn1 ⟨hk, hf⟩
          · exact hn2 ⟨hk, hh⟩
        · rintro ⟨hr, hn1⟩
          refine ⟨⟨hr, ?_⟩, ?_⟩
          · rintro ⟨hk, hf⟩
            exact hn1 ⟨hk, Or.inl hf⟩
          · rintro ⟨hk, hh⟩
            exact hn1 ⟨hk, Or.inr ⟨rfl, hh⟩⟩
    · rw [if_neg hpred]
      have hpredo : ((fl.map to_predicate).any fun p =>
          p path (Module.mk cls fs)) = false := by
        have h2 : ((fl.map to_predicate).any fun p =>
            p path (Module.mk cls
              (saFields (fl.map to_predicate) ats path fs rem).fst)) = false := by
          simpa using hpred
        rw [← anyPred_congr fl path
          (Module.mk cls (saFields (fl.map to_predicate) ats path fs rem).fst)
          (Module.mk cls fs) rfl]
        exact h2
      refine ⟨hsub, ?_⟩
      intro hnd n
      rw [hiff hnd n, foundM_decomp, hpredo]
      constructor
      · rintro ⟨hr, hn1⟩
        refine ⟨hr, ?_⟩
        rintro ⟨hk, (hf | ⟨hfalse, _⟩)⟩
        · exact hn1 ⟨hk, hf⟩
        · exact absurd hfalse (by simp)
      · rintro ⟨hr, hn1⟩
        refine ⟨hr, ?_⟩
        rintro ⟨hk, hf⟩
        exact hn1 ⟨hk, Or.inl hf⟩
  have hnil : saRemF (fl.map to_predicate) ats .fnil := by
    intro path rem
    rw [saFields_nil]
    refine ⟨List.Sublist.refl rem, ?_⟩
    intro _hnd n
    constructor
    · intro hr
      refine ⟨hr, ?_⟩
      rintro ⟨_, hf⟩
      exact foundF_nil (fl.map to_predicate) path n hf
    · rintro ⟨hr, _⟩
      exact hr
  have hcm : ∀ k c rest, saRemM (fl.map to_predicate) ats c →
      saRemF (fl.map to_predicate) ats rest →
      saRemF (fl.map to_predicate) ats (.fcons k (.amodule c) rest) := by
    intro k c rest hM hFr path rem
    rw [saFields_cons_module]
    obtain ⟨hsub_c, hiff_c⟩ := hM (path ++ [k]) rem
    obtain ⟨hsub_r, hiff_r⟩ := hFr path
      (saModule (fl.map to_predicate) ats (path ++ [k]) c rem).snd
    refine ⟨hsub_r.trans hsub_c, ?_⟩
    intro hnd n
    rw [hiff_r (hsub_c.nodup hnd) n, hiff_c hnd n, foundF_decomp_module]
    constructor
    · rintro ⟨⟨hr, hn1⟩, hn2⟩
      refine ⟨hr, ?_⟩
      rintro ⟨hk, (hf | hf)⟩
      · exact hn1 ⟨hk, hf⟩
      · exact hn2 ⟨hk, hf⟩
    · rintro ⟨hr, hn1⟩
      refine ⟨⟨hr, ?_⟩, ?_⟩
      · rintro ⟨hk, hf⟩
        exact hn1 ⟨hk, Or.inl hf⟩
      · rintro ⟨hk, hf⟩
        exact hn1 ⟨hk, Or.inr hf⟩
  have hcv : ∀ k v rest, saRemF (fl.map to_predicate) ats rest →
      saRemF (fl.map to_predicate) ats (.fcons k (.avar v) rest) := by
    intro k v rest hFr path rem
    rw [saFields_cons_var]
    obtain ⟨hsub, hiff⟩ := hFr path rem
    refine ⟨hsub, ?_⟩
    intro hnd n
    rw [hiff hnd n]
    constructor
    · rintro ⟨hr, hn1⟩
      refine ⟨hr, ?_⟩
      rintro ⟨hk, hf⟩
      exact hn1 ⟨hk, (foundF_decomp_var (fl.map to_predicate) path k v rest n).mp hf⟩
    · rintro ⟨hr, hn1⟩
      refine ⟨hr, ?_⟩
      rintro ⟨hk, hf⟩
      exact hn1 ⟨hk, (foundF_decomp_var (fl.map to_predicate) path k v rest n).mpr hf⟩
  have hcl : ∀ k v rest, saRemF (fl.map to_predicate) ats rest →
      saRemF (fl.map to_predicate) ats (.fcons k (.aval v) rest) := by
    intro k v rest hFr path rem
    rw [saFields_cons_val]
    obtain ⟨hsub, hiff⟩ := hFr path rem
    refine ⟨hsub, ?_⟩
    intro hnd n
    rw [hiff hnd n]
    constructor
    · rintro ⟨hr, hn1⟩
      refine ⟨hr, ?_⟩
      rintro ⟨hk, hf⟩
      exact hn1 ⟨hk, (foundF_decomp_val (fl.map to_predicate) path k v rest n).mp hf⟩
    · rintro ⟨hr, hn1⟩
      refine ⟨hr, ?_⟩
      rintro ⟨hk, hf⟩
      exact hn1 ⟨hk, (foundF_decomp_val (fl.map to_predicate) path k v rest n).mpr hf⟩
  exact ⟨moduleInd _ _ hmk hnil hcm hcv hcl, fieldsInd _ _ hmk hnil hcm hcv hcl⟩

theorem set_attributes_fst (m : Module) (filters : List Filter) (rif : Bool)
    (ats : List (String × PyVal)) :
    (set_attributes m filters rif ats).fst =
      (saModule ((if filters.isEmpty then [Filter.everything] else filters).map
        to_predicate) ats [] m (ats.map Prod.fst)).fst := by
  simp only [set_attributes]
  split <;> split <;> rfl

theorem set_attributes_snd_none (m : Module) (filters : List Filter)
    (ats : List (String × PyVal)) :
    (set_attributes m filters false ats).snd = none := by
  simp [set_attributes]

/-- C3: `set_attributes` sets, on every traversed module that satisfies at
least one filter predicate, every passed keyword attribute that the module
already has; each result module corresponds to an original module at the same
path with the same class and the same attribute names (no module is created
or replaced by a fresh one, and no attribute is created). -/
theorem set_attributes_sets (m : Module) (filters : List Filter) (rif : Bool)
    (ats : List (String × PyVal)) (hn : (ats.map Prod.fst).Nodup)
    (q : List String) (sub' : Module)
    (hmem : (q, sub') ∈ iter_modules (set_attributes m filters rif ats).fst) :
    ∃ sub, (q, sub) ∈ iter_modules m ∧
      sub'.className = sub.className ∧
      keysOf sub'.fields = keysOf sub.fields ∧
      (∀ n, hasattrM sub' n = hasattrM sub n) ∧
      (matchesFilters filters q sub = true →
        ∀ n v, (n, v) ∈ ats → hasattrM sub n = true →
          getattrM sub' n = some (.aval v)) := by
  rw [set_attributes_fst] at hmem
  obtain ⟨sub, hsm, hcorr⟩ :=
    (saCorr_all (if filters.isEmpty then [Filter.everything] else filters) ats hn).1
      m [] (ats.map Prod.fst) q sub' hmem
  unfold corr at hcorr
  obtain ⟨hcls, hkeys, hmatch, _⟩ := hcorr
  refine ⟨sub, hsm, hcls, hkeys, ?_, ?_⟩
  · intro n
    exact hasAttrF_congr_keys sub'.fields sub.fields hkeys n
  · intro hmf n v hnv hha
    exact (hmatch hmf).1 n v hnv hha

/-- Witness for C3: setting `deterministic` over a concrete tree with no
filters; the root of the result corresponds to the original root. -/
theorem set_attributes_sets_witness :
    ∃ sub, ([], sub) ∈ iter_modules w0 ∧
      (set_attributes w0 [] false [("deterministic", PyVal.vbool false)]).fst.className
        = sub.className ∧
      keysOf (set_attributes w0 [] false
        [("deterministic", PyVal.vbool false)]).fst.fields = keysOf sub.fields ∧
      (∀ n, hasattrM (set_attributes w0 [] false
        [("deterministic", PyVal.vbool false)]).fst n = hasattrM sub n) ∧
      (matchesFilters [] [] sub = true →
        ∀ n v, (n, v) ∈ [("deterministic", PyVal.vbool false)] →
          hasattrM sub n = true →
          getattrM (set_attributes w0 [] false
            [("deterministic", PyVal.vbool false)]).fst n = some (.aval v)) :=
  set_attributes_sets w0 [] false [("deterministic", PyVal.vbool false)] (by simp)
    [] (set_attributes w0 [] false [("deterministic", PyVal.vbool false)]).fst
    ((iterMem_all.1 _ [] [] _).mpr ⟨[], rfl, Reach.here _⟩)

/-- C4: `set_attributes` changes nothing outside its target: a module that
satisfies no filter predicate keeps all of its non-module attributes, and on
any module an attribute whose name is not among the passed keywords keeps its
previous value. -/
theorem set_attributes_frame (m : Module) (filters : List Filter) (rif : Bool)
    (ats : List (String × PyVal)) (hn : (ats.map Prod.fst).Nodup)
    (q : List String) (sub' : Module)
    (hmem : (q, sub') ∈ iter_modules (set_attributes m filters rif ats).fst) :
    ∃ sub, (q, sub) ∈ iter_modules m ∧
      (matchesFilters filters q sub = false →
        ∀ n a, getattrM sub n = some a → (∀ c, a ≠ .amodule c) →
          getattrM sub' n = some a) ∧
      (∀ n, n ∉ ats.map Prod.fst → ∀ a, getattrM sub n = some a →
        (∀ c, a ≠ .amodule c) → getattrM sub' n = some a) := by
  rw [set_attributes_fst] at hmem
  obtain ⟨sub, hsm, hcorr⟩ :=
    (saCorr_all (if filters.isEmpty then [Filter.everything] else filters) ats hn).1
      m [] (ats.map Prod.fst) q sub' hmem
  unfold corr at hcorr
  obtain ⟨_, _, hmatch, hunmatch⟩ := hcorr
  refine ⟨sub, hsm, ?_, ?_⟩
  · intro hmf n a hga hnota
    exact hunmatch hmf n a hga hnota
  · intro n hnin a hga hnota
    cases hp : matchesFilters filters q sub with
    | true => exact (hmatch hp).2 n hnin a hga hnota
    | false => exact hunmatch hp n a hga hnota

/-- Witness for C4: with a filter selecting only dropouts, the root keeps its
attributes. -/
theorem set_attributes_frame_witness :
    ∃ sub, ([], sub) ∈ iter_modules w0 ∧
      (matchesFilters [Filter.ofType "Dropout"] [] sub = false →
        ∀ n a, getattrM sub n = some a → (∀ c, a ≠ .amodule c) →
          getattrM (set_attributes w0 [Filter.ofType "Dropout"] false
            [("deterministic", PyVal.vbool false)]).fst n = some a) ∧
      (∀ n, n ∉ [("deterministic", PyVal.vbool false)].map Prod.fst →
        ∀ a, getattrM sub n = some a → (∀ c, a ≠ .amodule c) →
          getattrM (set_attributes w0 [Filter.ofType "Dropout"] false
            [("deterministic", PyVal.vbool false)]).fst n = some a) :=
  set_attributes_frame w0 [Filter.ofType "Dropout"] false
    [("deterministic", PyVal.vbool false)] (by simp)
    [] (set_attributes w0 [Filter.ofType "Dropout"] false
      [("deterministic", PyVal.vbool false)]).fst
    ((iterMem_all.1 _ [] [] _).mpr ⟨[], rfl, Reach.here _⟩)

/-- C8: with `raise_if_not_found=True`, `set_attributes` raises `ValueError`
if and only if some passed attribute name was found on no selected module; the
mutation is not atomic: the mutated tree is exactly the one produced with
`raise_if_not_found=False`, so every attribute that was found stays set. -/
theorem set_attributes_raises (m : Module) (filters : List Filter)
    (ats : List (String × PyVal)) (hn : (ats.map Prod.fst).Nodup) :
    ((set_attributes m filters true ats).snd ≠ none ↔
      ∃ n, n ∈ ats.map Prod.fst ∧ ∀ q sub, (q, sub) ∈ iter_modules m →
        matchesFilters filters q sub = true → hasattrM sub n = false) ∧
    (set_attributes m filters true ats).fst
      = (set_attributes m filters false ats).fst := by
  constructor
  · have hrem := (((saRem_all
      (if filters.isEmpty then [Filter.everything] else filters) ats).1 m
        [] (ats.map Prod.fst)).2 hn)
    have hsnd : (set_attributes m filters true ats).snd ≠ none ↔
        (saModule ((if filters.isEmpty then [Filter.everything] else filters).map
          to_predicate) ats [] m (ats.map Prod.fst)).snd ≠ [] := by
      cases hemp : (saModule ((if filters.isEmpty then [Filter.everything]
          else filters).map to_predicate) ats [] m (ats.map Prod.fst)).snd with
      | nil => simp [set_attributes, hemp]
      | cons a l => simp [set_attributes, hemp]
    rw [hsnd]
    constructor
    · intro hne
      have : ∃ n, n ∈ (saModule ((if filters.isEmpty then [Filter.everything]
          else filters).map to_predicate) ats [] m (ats.map Prod.fst)).snd := by
        rcases hx : (saModule ((if filters.isEmpty then [Filter.everything]
            else filters).map to_predicate) ats [] m (ats.map Prod.fst)).snd with
          _ | ⟨a, l⟩
        · exact absurd hx hne
        · exact ⟨a, List.mem_cons_self a l⟩
      obtain ⟨n, hmem_n⟩ := this
      have h2 := (hrem n).mp hmem_n
      refine ⟨n, h2.1, ?_⟩
      intro q sub hqs hpredq
      cases hh : hasattrM sub n with
      | false => rfl
      | true => exact absurd (h2.2 ⟨h2.1, ⟨q, sub, hqs, hpredq, hh⟩⟩) (fun h => h)
    · rintro ⟨n, hkeys, hall⟩
      intro hemp
      have hin : n ∈ (saModule ((if filters.isEmpty then [Filter.everything]
          else filters).map to_predicate) ats [] m (ats.map Prod.fst)).snd :=
        (hrem n).mpr ⟨hkeys, by
          rintro ⟨_, q, sub, hqs, hp, hh⟩
          rw [hall q sub hqs hp] at hh
          exact absurd hh (by simp)⟩
      rw [hemp] at hin
      simp at hin
  · rw [set_attributes_fst, set_attributes_fst]

/-- Witness for C8: asking for an attribute no module has raises. -/
theorem set_attributes_raises_witness :
    (set_attributes w0 [] true [("nope", PyVal.vint 0)]).snd ≠ none := by
  have h := set_attributes_raises w0 [] [("nope", PyVal.vint 0)] (by simp)
  apply h.1.mpr
  refine ⟨"nope", by simp, ?_⟩
  intro q sub hmem _
  rw [show iter_modules w0 = [(["drop"], w0drop), ([], w0)] from rfl] at hmem
  rcases List.mem_cons.mp hmem with heq | hmem2
  · obtain ⟨_, rfl⟩ := Prod.mk.inj heq
    rfl
  · rcases List.mem_cons.mp hmem2 with heq2 | hnil
    · obtain ⟨_, rfl⟩ := Prod.mk.inj heq2
      rfl
    · simp at hnil

/-- C1: `train()` sets `deterministic` and `use_running_average` to `False`
on every module of the tree that has the attribute, `eval()` sets both to
`True`, modules lacking an attribute are skipped, and neither call raises
(both pass `raise_if_not_found=False`). -/
theorem train_eval_modes (m : Module) :
    (train m []).snd = none ∧ (eval m []).snd = none ∧
    (∀ q sub', (q, sub') ∈ iter_modules (train m []).fst →
      (hasattrM sub' "deterministic" = true →
        getattrM sub' "deterministic" = some (.aval (.vbool false))) ∧
      (hasattrM sub' "use_running_average" = true →
        getattrM sub' "use_running_average" = some (.aval (.vbool false)))) ∧
    (∀ q sub', (q, sub') ∈ iter_modules (eval m []).fst →
      (hasattrM sub' "deterministic" = true →
        getattrM sub' "deterministic" = some (.aval (.vbool true))) ∧
      (hasattrM sub' "use_running_average" = true →
        getattrM sub' "use_running_average" = some (.aval (.vbool true)))) := by
  have htr : train m [] = set_attributes m [] false
      [("deterministic", PyVal.vbool false),
       ("use_running_average", PyVal.vbool false)] := by
    simp [train]
  have hev : eval m [] = set_attributes m [] false
      [("deterministic", PyVal.vbool true),
       ("use_running_average", PyVal.vbool true)] := by
    simp [eval]
  refine ⟨by rw [htr]; exact set_attributes_snd_none m [] _,
    by rw [hev]; exact set_attributes_snd_none m [] _, ?_, ?_⟩
  · intro q sub' hmem
    rw [htr, set_attributes_fst] at hmem
    obtain ⟨sub, hsm, hcorr⟩ := (saCorr_all [Filter.everything]
      [("deterministic", PyVal.vbool false),
       ("use_running_average", PyVal.vbool false)] (by simp)).1
      m [] _ q sub' hmem
    unfold corr at hcorr
    obtain ⟨_, hkeys, hmatch, _⟩ := hcorr
    have hpr : ((([Filter.everything]).map to_predicate).any
        fun pr => pr q sub) = true := rfl
    have htrans : ∀ n, hasattrM sub' n = hasattrM sub n := fun n =>
      hasAttrF_congr_keys sub'.fields sub.fields hkeys n
    constructor
    · intro hha
      exact (hmatch hpr).1 "deterministic" (PyVal.vbool false) (by simp)
        (by rw [← htrans]; exact hha)
    · intro hha
      exact (hmatch hpr).1 "use_running_average" (PyVal.vbool false) (by simp)
        (by rw [← htrans]; exact hha)
  · intro q sub' hmem
    rw [hev, set_attributes_fst] at hmem
    obtain ⟨sub, hsm, hcorr⟩ := (saCorr_all [Filter.everything]
      [("deterministic", PyVal.vbool true),
       ("use_running_average", PyVal.vbool true)] (by simp)).1
      m [] _ q sub' hmem
    unfold corr at hcorr
    obtain ⟨_, hkeys, hmatch, _⟩ := hcorr
    have hpr : ((([Filter.everything]).map to_predicate).any
        fun pr => pr q sub) = true := rfl
    have htrans : ∀ n, hasattrM sub' n = hasattrM sub n := fun n =>
      hasAttrF_congr_keys sub'.fields sub.fields hkeys n
    constructor
    · intro hha
      exact (hmatch hpr).1 "deterministic" (PyVal.vbool true) (by simp)
        (by rw [← htrans]; exact hha)
    · intro hha
      exact (hmatch hpr).1 "use_running_average" (PyVal.vbool true) (by simp)
        (by rw [← htrans]; exact hha)

/-- Witness for C1: training and evaluating a concrete tree flips the flag. -/
theorem train_eval_modes_witness :
    getattrM (train w0 []).fst "deterministic" = some (.aval (.vbool false)) ∧
    getattrM (eval w0 []).fst "deterministic" = some (.aval (.vbool true)) := by
  have h := train_eval_modes w0
  have hmem1 : ([], (train w0 []).fst) ∈ iter_modules (train w0 []).fst :=
    (iterMem_all.1 _ [] [] _).mpr ⟨[], rfl, Reach.here _⟩
  have hmem2 : ([], (eval w0 []).fst) ∈ iter_modules (eval w0 []).fst :=
    (iterMem_all.1 _ [] [] _).mpr ⟨[], rfl, Reach.here _⟩
  exact ⟨(h.2.2.1 [] _ hmem1).1 rfl, (h.2.2.2 [] _ hmem2).1 rfl⟩

/-! Flatten/unflatten round trip (claim C7). -/

theorem pathLeb_total : ∀ a b : List String, pathLeb a b = true ∨ pathLeb b a = true
  | [], _ => Or.inl rfl
  | _ :: _, [] => Or.inr rfl
  | a :: as, b :: bs => by
    rcases lt_trichotomy a b with h | h | h
    · exact Or.inl (by simp [pathLeb, h])
    · subst h
      rcases pathLeb_total as bs with h2 | h2
      · exact Or.inl (by simp [pathLeb, lt_self_iff_false, h2])
      · exact Or.inr (by simp [pathLeb, lt_self_iff_false, h2])
    · exact Or.inr (by simp [pathLeb, h])

theorem pathLeb_trans : ∀ a b c : List String, pathLeb a b = true →
    pathLeb b c = true → pathLeb a c = true
  | [], _, _, _, _ => rfl
  | _ :: _, [], _, h, _ => by simp [pathLeb] at h
  | _ :: _, _ :: _, [], _, h2 => by simp [pathLeb] at h2
  | a :: as, b :: bs, c :: cs, h1, h2 => by
    simp only [pathLeb] at h1 h2 ⊢
    by_cases hab : a < b
    · by_cases hbc : b < c
      · rw [if_pos (hab.trans hbc)]
      · by_cases hcb : c < b
        · rw [if_neg hbc, if_pos hcb] at h2
          exact absurd h2 (by simp)
        · have hbc2 : b = c := le_antisymm (not_lt.mp hcb) (not_lt.mp hbc)
          subst hbc2
          rw [if_pos hab]
    · by_cases hba : b < a
      · rw [if_neg hab, if_pos hba] at h1
        exact absurd h1 (by simp)
      · have heq : a = b := le_antisymm (not_lt.mp hba) (not_lt.mp hab)
        subst heq
        rw [if_neg (lt_irrefl a), if_neg (lt_irrefl a)] at h1
        by_cases hac : a < c
        · rw [if_pos hac]
        · by_cases hca : c < a
          · rw [if_neg hac, if_pos hca] at h2
            exact absurd h2 (by simp)
          · have heq2 : a = c := le_antisymm (not_lt.mp hca) (not_lt.mp hac)
            subst heq2
            rw [if_neg (lt_irrefl a), if_neg (lt_irrefl a)] at h2 ⊢
            exact pathLeb_trans as bs cs h1 h2

theorem zip_fst_snd {α β : Type} : ∀ l : List (α × β),
    List.zip (l.map Prod.fst) (l.map Prod.snd) = l
  | [] => rfl
  | (a, b) :: rest => by simp [List.zip_cons_cons, zip_fst_snd rest]

theorem nodupB_cons (k : String) (ks : List String) (h : nodupB (k :: ks) = true) :
    k ∉ ks ∧ nodupB ks = true := by
  simp only [nodupB, Bool.and_eq_true, Bool.not_eq_true'] at h
  refine ⟨?_, h.2⟩
  intro hm
  have hc : List.contains ks k = true := List.elem_eq_true_of_mem hm
  rw [h.1] at hc
  exact absurd hc (by simp)

theorem lookupPath_of_mem : ∀ (l : List (List String × Variable)) (q : List String)
    (v : Variable), (l.map Prod.fst).Nodup → (q, v) ∈ l → lookupPath l q = some v
  | [], _, _, _, h => by simp at h
  | (q2, v2) :: rest, q, v, hnd, hm => by
    rcases List.mem_cons.mp hm with heq | hm2
    · obtain ⟨rfl, rfl⟩ := Prod.mk.inj heq
      simp [lookupPath]
    · simp only [lookupPath]
      by_cases he : q2 = q
      · subst he
        exfalso
        simp only [List.map_cons, List.nodup_cons] at hnd
        exact hnd.1 (List.mem_map.mpr ⟨(q2, v), hm2, rfl⟩)
      · rw [if_neg he]
        refine lookupPath_of_mem rest q v ?_ hm2
        simp only [List.map_cons, List.nodup_cons] at hnd
        exact hnd.2

theorem mergeOk_all : (∀ m, mergeOkM m) ∧ (∀ fs, mergeOkF fs) := by
  have hmk : ∀ cls fs, mergeOkF fs → mergeOkM (.mk cls fs) := by
    intro cls fs hF p st hlk
    show Module.mk cls (mergeF st p (stripF fs)) = Module.mk cls fs
    rw [hF p st (fun q v hm => hlk q v hm)]
  have hnil : mergeOkF .fnil := by
    intro p st _
    rfl
  have hcm : ∀ k c rest, mergeOkM c → mergeOkF rest →
      mergeOkF (.fcons k (.amodule c) rest) := by
    intro k c rest hM hFr p st hlk
    show Fields.fcons k (.amodule (mergeM st (p ++ [k]) (stripM c)))
        (mergeF st p (stripF rest)) = Fields.fcons k (.amodule c) rest
    rw [hM (p ++ [k]) st (fun q v hm => hlk q v (by
        simp only [collectF, List.mem_append]
        exact Or.inl hm)),
      hFr p st (fun q v hm => hlk q v (by
        simp only [collectF, List.mem_append]
        exact Or.inr hm))]
  have hcv : ∀ k v rest, mergeOkF rest → mergeOkF (.fcons k (.avar v) rest) := by
    intro k v rest hFr p st hlk
    have hhead : lookupPath st (p ++ [k]) = some v :=
      hlk (p ++ [k]) v (by simp [collectF])
    show (match lookupPath st (p ++ [k]) with
      | some w => Fields.fcons k (.avar w) (mergeF st p (stripF rest))
      | none => Fields.fcons k (.avar ⟨v.varType, PyVal.vnone⟩)
          (mergeF st p (stripF rest))) = Fields.fcons k (.avar v) rest
    rw [hhead]
    rw [hFr p st (fun q w hm => hlk q w (by
      simp only [collectF, List.mem_cons]
      exact Or.inr hm))]
  have hcl : ∀ k v rest, mergeOkF rest → mergeOkF (.fcons k (.aval v) rest) := by
    intro k v rest hFr p st hlk
    show Fields.fcons k (.aval v) (mergeF st p (stripF rest))
        = Fields.fcons k (.aval v) rest
    rw [hFr p st (fun q w hm => hlk q w (by simpa [collectF] using hm))]
  exact ⟨moduleInd _ _ hmk hnil hcm hcv hcl, fieldsInd _ _ hmk hnil hcm hcv hcl⟩

theorem collectPre_all : (∀ m, collectPreM m) ∧ (∀ fs, collectPreF fs) := by
  have hmk : ∀ cls fs, collectPreF fs → collectPreM (.mk cls fs) := by
    intro cls fs hF p q v hm
    obtain ⟨k, s, rfl, _⟩ := hF p q v hm
    exact ⟨k :: s, rfl⟩
  have hnil : collectPreF .fnil := by
    intro p q v hm
    simp [collectF] at hm
  have hcm : ∀ k c rest, collectPreM c → collectPreF rest →
      collectPreF (.fcons k (.amodule c) rest) := by
    intro k c rest hM hFr p q v hm
    simp only [collectF, List.mem_append] at hm
    rcases hm with hl | hr
    · obtain ⟨s, rfl⟩ := hM (p ++ [k]) q v hl
      exact ⟨k, s, by simp, by simp [keysOf]⟩
    · obtain ⟨k2, s, rfl, hk2⟩ := hFr p q v hr
      exact ⟨k2, s, rfl, by simp [keysOf, hk2]⟩
  have hcv : ∀ k v rest, collectPreF rest → collectPreF (.fcons k (.avar v) rest) := by
    intro k v rest hFr p q w hm
    simp only [collectF, List.mem_cons] at hm
    rcases hm with heq | hr
    · obtain ⟨rfl, rfl⟩ := Prod.mk.inj heq
      exact ⟨k, [], rfl, by simp [keysOf]⟩
    · obtain ⟨k2, s, rfl, hk2⟩ := hFr p q w hr
      exact ⟨k2, s, rfl, by simp [keysOf, hk2]⟩
  have hcl : ∀ k v rest, collectPreF rest → collectPreF (.fcons k (.aval v) rest) := by
    intro k v rest hFr p q w hm
    simp only [collectF] at hm
    obtain ⟨k2, s, rfl, hk2⟩ := hFr p q w hm
    exact ⟨k2, s, rfl, by simp [keysOf, hk2]⟩
  exact ⟨moduleInd _ _ hmk hnil hcm hcv hcl, fieldsInd _ _ hmk hnil hcm hcv hcl⟩

theorem collectNd_all : (∀ m, collectNdM m) ∧ (∀ fs, collectNdF fs) := by
  have hmk : ∀ cls fs, collectNdF fs → collectNdM (.mk cls fs) := by
    intro cls fs hF p hwf
    simp only [wfM, Bool.and_eq_true] at hwf
    exact hF p hwf.1 hwf.2
  have hnil : collectNdF .fnil := by
    intro p _ _
    simp [collectF]
  have hcm : ∀ k c rest, collectNdM c → collectNdF rest →
      collectNdF (.fcons k (.amodule c) rest) := by
    intro k c rest hM hFr p hkeys hwf
    simp only [wfF, Bool.and_eq_true] at hwf
    obtain ⟨hknotin, hkeys2⟩ := nodupB_cons k (keysOf rest) (by
      simpa [keysOf] using hkeys)
    simp only [collectF, List.map_append]
    apply List.Nodup.append (hM (p ++ [k]) hwf.1) (hFr p hkeys2 hwf.2)
    intro q hq1 hq2
    obtain ⟨⟨q1, v1⟩, hm1, rfl⟩ := List.mem_map.mp hq1
    obtain ⟨s1, hs1⟩ := collectPre_all.1 c (p ++ [k]) q1 v1 hm1
    obtain ⟨⟨q2, v2⟩, hm2, heq2⟩ := List.mem_map.mp hq2
    obtain ⟨k2, s2, hs2, hk2⟩ := collectPre_all.2 rest p q2 v2 hm2
    have : q1 = q2 := heq2.symm
    rw [this, hs2] at hs1
    have hks : k :: s1 = k2 :: s2 := by
      have := hs1
      rw [show p ++ [k] ++ s1 = p ++ (k :: s1) from by simp] at this
      exact List.append_cancel_left this.symm
    have hkk : k = k2 := (List.cons.inj hks).1
    rw [← hkk] at hk2
    exact hknotin hk2
  have hcv : ∀ k v rest, collectNdF rest → collectNdF (.fcons k (.avar v) rest) := by
    intro k v rest hFr p hkeys hwf
    simp only [wfF] at hwf
    obtain ⟨hknotin, hkeys2⟩ := nodupB_cons k (keysOf rest) (by
      simpa [keysOf] using hkeys)
    simp only [collectF, List.map_cons, List.nodup_cons]
    refine ⟨?_, hFr p hkeys2 hwf⟩
    intro hq
    obtain ⟨⟨q2, v2⟩, hm2, heq2⟩ := List.mem_map.mp hq
    obtain ⟨k2, s2, hs2, hk2⟩ := collectPre_all.2 rest p q2 v2 hm2
    rw [hs2] at heq2
    have hks : k2 :: s2 = [k] := List.append_cancel_left heq2
    have hkk : k2 = k := (List.cons.inj hks).1
    rw [hkk] at hk2
    exact hknotin hk2
  have hcl : ∀ k v rest, collectNdF rest → collectNdF (.fcons k (.aval v) rest) := by
    intro k v rest hFr p hkeys hwf
    simp only [wfF] at hwf
    obtain ⟨_, hkeys2⟩ := nodupB_cons k (keysOf rest) (by simpa [keysOf] using hkeys)
    simp only [collectF]
    exact hFr p hkeys2 hwf
  exact ⟨moduleInd _ _ hmk hnil hcm hcv hcl, fieldsInd _ _ hmk hnil hcm hcv hcl⟩

/-- C7: `_module_flatten` splits the module into a graphdef and the state
entries sorted by path key, and `_module_unflatten` on that output merges the
zipped paths and leaves back into a module whose `split` agrees with the
original module's `split` (here the reconstruction is exact). -/
theorem module_flatten_unflatten (m : Module) (h : wfM m = true) :
    List.Pairwise (fun a b => pathLeb a b = true) (_module_flatten m).snd.fst ∧
    _module_unflatten (_module_flatten m).snd (_module_flatten m).fst = m ∧
    split (_module_unflatten (_module_flatten m).snd (_module_flatten m).fst)
      = split m := by
  have hfl : _module_flatten m =
      ((List.insertionSort pairOrder (collectM [] m)).map Prod.snd,
        ((List.insertionSort pairOrder (collectM [] m)).map Prod.fst,
          stripM m)) := rfl
  have hperm := List.perm_insertionSort pairOrder (collectM [] m)
  have hnd : ((collectM [] m).map Prod.fst).Nodup := collectNd_all.1 m [] h
  have hnd2 : ((List.insertionSort pairOrder (collectM [] m)).map
      Prod.fst).Nodup := ((hperm.map Prod.fst).nodup_iff).mpr hnd
  have hmerge : mergeM (List.insertionSort pairOrder (collectM [] m)) []
      (stripM m) = m := by
    apply mergeOk_all.1 m []
    intro q v hm
    exact lookupPath_of_mem _ q v hnd2 (hperm.mem_iff.mpr hm)
  have hrt : _module_unflatten (_module_flatten m).snd (_module_flatten m).fst
      = m := by
    rw [hfl]
    show merge (stripM m) (List.zip
      ((List.insertionSort pairOrder (collectM [] m)).map Prod.fst)
      ((List.insertionSort pairOrder (collectM [] m)).map Prod.snd)) = m
    rw [zip_fst_snd]
    exact hmerge
  refine ⟨?_, hrt, by rw [hrt]⟩
  rw [hfl]
  have hs := @List.sorted_insertionSort (List String × Variable) pairOrder _
    ⟨fun a b => pathLeb_total a.fst b.fst⟩
    ⟨fun a b c h1 h2 => pathLeb_trans a.fst b.fst c.fst h1 h2⟩
    (collectM [] m)
  exact List.Pairwise.map Prod.fst (fun a b hab => hab) hs

/-- Witness for C7 at a concrete well-formed tree. -/
theorem module_flatten_unflatten_witness :
    wfM w0 = true ∧
    split (_module_unflatten (_module_flatten w0).snd (_module_flatten w0).fst)
      = split w0 :=
  ⟨rfl, (module_flatten_unflatten w0 rfl).2.2⟩

end Flax
